import Mathlib

/-!
Verification of `cupyx/distributed/_array.py` (chunk-based distributed arrays).

The development is a shallow embedding of the module:

* The host-side index algebra (`_extgcd`, `_slice_intersection`,
  `_index_for_subslice`, `_index_intersection`, `_convert_chunk_idx_to_slices`)
  is embedded directly over `Int`, with Python's floor `//` and nonnegative `%`
  for positive divisors rendered by `Int.ediv` / `Int.emod` (they agree with
  Python's operators whenever the divisor is positive, which holds at every
  division site of the source given positive slice steps).

* Device buffers are modelled by total functions `Coord → α` addressed by
  *global* coordinates of the logical array.  The source stores each chunk as a
  strided local buffer and translates between local and global coordinates with
  `_index_for_subindex`; the global-coordinate model absorbs that (bijective)
  translation, so a sub-buffer `chunk.data[_index_for_subindex(idx, sub, shape)]`
  appears here as the same function read on the sub-region `sub`.

* Streams, events, NCCL transfers and `prevent_gc` keep-alives order the very
  same value computations that the sequential model performs in program order;
  they carry no value content and are dropped.  Where the source copies a buffer
  before mutating the original (`_apply_and_update_chunks` in a non-idempotent
  mode), the model captures the value before performing the functional update,
  mirroring the event ordering.

All definitions are executable (structural recursion only), so concrete runs of
the model can be discharged by `decide`/`rfl`.
-/

namespace CupyDist

/-- A Python `slice` object whose three fields are explicit integers.
`slice(a, b)` (step `None`) is written with step `1`: every consumer of such a
slice in the source immediately normalizes `None` to `1` via `slice.indices`. -/
structure PySlice where
  start : Int
  stop : Int
  step : Int
deriving DecidableEq, Repr

/-- A Python `slice` as written by the user: any field may be `None`. -/
structure SliceArg where
  start : Option Int
  stop : Option Int
  step : Option Int
deriving DecidableEq, Repr

/-- CPython `PySlice_AdjustIndices` for one endpoint: negative values count from
the end, then the result is clamped to `[lower, upper]`. -/
def pyAdjustIndex (i : Int) (lower upper : Int) (length : Nat) : Int :=
  if i < 0 then max (i + length) lower else min i upper

/-- CPython `slice.indices(length)` with `None` defaults resolved, assuming a
nonzero step (CPython raises `ValueError` on a zero step before reaching this
arithmetic; the embedded callers check the step first). -/
def sliceArgIndices (s : SliceArg) (length : Nat) : Int × Int × Int :=
  let step := s.step.getD 1
  let lower : Int := if step < 0 then -1 else 0
  let upper : Int := if step < 0 then (length : Int) - 1 else (length : Int)
  let start := match s.start with
    | none => if step < 0 then upper else lower
    | some v => pyAdjustIndex v lower upper length
  let stop := match s.stop with
    | none => if step < 0 then lower else upper
    | some v => pyAdjustIndex v lower upper length
  (start, stop, step)

/-- `slice.indices(length)` for a slice with explicit fields. -/
def pyIndices (s : PySlice) (length : Nat) : Int × Int × Int :=
  sliceArgIndices ⟨some s.start, some s.stop, some s.step⟩ length

/-- The slice with the values `slice.indices(length)` returns. -/
def normSlice (s : PySlice) (length : Nat) : PySlice :=
  let (a, b, c) := pyIndices s length
  ⟨a, b, c⟩

/-- Membership of `i` in a slice taken literally (`start ≤ i < stop`, congruent
to `start` modulo `step`).  Intended for already-normalized slices with a
positive step. -/
def memSlice (s : PySlice) (i : Int) : Bool :=
  s.start ≤ i && i < s.stop && (i - s.start) % s.step == 0

/-- The set of indices a slice selects from an axis of size `length`: Python's
`range(*s.indices(length))` membership. -/
def inSlice (s : PySlice) (length : Nat) (i : Int) : Bool :=
  memSlice (normSlice s length) i

/-- Fuelled extended-Euclid loop of `_extgcd`.  The source's `while d:` loop is
rendered with a fuel argument so that the kernel can evaluate it; the fuel
strictly dominates the loop count (`d` strictly decreases), and `extgcd` always
supplies enough, so the fuel-exhaustion clause is unreachable there. -/
def extgcdAux : Nat → Nat → Nat → Int → Int → Nat × Int
  | _, c, 0, x, _ => (c, x)
  | 0, c, _ + 1, x, _ => (c, x)
  | fuel + 1, c, d + 1, x, u =>
      extgcdAux fuel (d + 1) (c % (d + 1)) u (x - u * ((c / (d + 1) : Nat) : Int))

/-- `_extgcd(a, b)`: returns `(g, x)` with `g = gcd(a, b)` and
`a * x ≡ g (mod b)`.  The source assumes `a, b > 0`. -/
def extgcd (a b : Int) : Int × Int :=
  let r := extgcdAux b.toNat a.toNat b.toNat 1 0
  ((r.1 : Int), r.2)

/-- `c_step = a_step // g * b_step` of `_slice_intersection`. -/
def coreStep (aStep bStep : Int) : Int :=
  aStep / (extgcd aStep bStep).1 * bStep

/-- `c_start = a_start + a_step * a_skip` of `_slice_intersection`, where
`a_skip = x * ((b_start - a_start) // g) % (c_step // a_step)`. -/
def coreStart0 (aStart aStep bStart bStep : Int) : Int :=
  aStart + aStep *
    (((extgcd aStep bStep).2 * ((bStart - aStart) / (extgcd aStep bStep).1)) %
      (coreStep aStep bStep / aStep))

/-- The `if c_start < b_start` adjustment of `_slice_intersection`: bump
`c_start` by whole steps to the least congruent value not below `b_start`. -/
def coreStart (aStart aStep bStart bStep : Int) : Int :=
  if coreStart0 aStart aStep bStart bStep < bStart then
    coreStart0 aStart aStep bStart bStep +
      ((bStart - coreStart0 aStart aStep bStart bStep - 1) / coreStep aStep bStep + 1) *
        coreStep aStep bStep
  else coreStart0 aStart aStep bStart bStep

/-- Arithmetic core of `_slice_intersection`, taking the two slices already
pushed through `slice.indices(length)`. -/
def sliceIntersectionCore (aStart aStop aStep bStart bStop bStep : Int) :
    Option PySlice :=
  if (bStart - aStart) % (extgcd aStep bStep).1 != 0 then none
  else if coreStart aStart aStep bStart bStep < min aStop bStop then
    some ⟨coreStart aStart aStep bStart bStep, min aStop bStop, coreStep aStep bStep⟩
  else none

/-- `_slice_intersection(a, b, length)`: the intersection of two slices over an
axis of size `length`, as a slice, or `none` if they are disjoint. -/
def sliceIntersection (a b : PySlice) (length : Nat) : Option PySlice :=
  let ai := pyIndices a length
  let bi := pyIndices b length
  sliceIntersectionCore ai.1 ai.2.1 ai.2.2 bi.1 bi.2.1 bi.2.2

/-- `_index_for_subslice(a, sub, length)`: the slice `c` with
`array[a][c] == array[sub]` (for `sub` contained in `a`). -/
def indexForSubslice (a sub : PySlice) (length : Nat) : PySlice :=
  let ai := pyIndices a length
  let si := pyIndices sub length
  let aStart := ai.1
  let aStep := ai.2.2
  ⟨(si.1 - aStart) / aStep, (si.2.1 - aStart - 1) / aStep + 1, si.2.2 / aStep⟩

/-- A per-axis tuple of slices describing a chunk's region. -/
abbrev Region := List PySlice

def zipWith3 (f : α → β → γ → δ) : List α → List β → List γ → List δ
  | a :: as, b :: bs, c :: cs => f a b c :: zipWith3 f as bs cs
  | _, _, _ => []

/-- `None not in xs` for a tuple of per-axis results. -/
def optionsAll : List (Option PySlice) → Option Region
  | [] => some []
  | none :: _ => none
  | some s :: rest => (optionsAll rest).map (s :: ·)

/-- `_index_intersection(a_idx, b_idx, shape)`: per-axis intersection, `none` if
any axis is empty.  The source asserts `len(a_idx) == len(b_idx) == len(shape)`;
callers guarantee it, and the theorems carry it as a hypothesis. -/
def indexIntersection (aIdx bIdx : Region) (shape : List Nat) : Option Region :=
  optionsAll (zipWith3 sliceIntersection aIdx bIdx shape)

/-- `_index_for_subindex(a_idx, sub_idx, shape)`. -/
def indexForSubindex (aIdx subIdx : Region) (shape : List Nat) : Region :=
  zipWith3 indexForSubslice aIdx subIdx shape

/-- One element of a chunk index as passed by the user: an integer, a slice, or
an object of any other type (which the source rejects). -/
inductive IdxItem where
  | intIdx (i : Int)
  | slcIdx (s : SliceArg)
  | badIdx
deriving DecidableEq, Repr

/-- One axis of `_convert_chunk_idx_to_slices`.  For an integer index the source
appends `slice(idx, idx + 1)` verbatim (no normalization; step `None` ≡ `1`).
For a slice it normalizes through `slice.indices` and rejects nonpositive steps
and `start == stop`; CPython's `slice.indices` itself raises on a zero step, so
the zero-step test here runs first. -/
def convertOne (length : Nat) (item : IdxItem) : Except String PySlice :=
  match item with
  | .intIdx i =>
      if (length : Int) ≤ i then
        .error "IndexError: index is out of bounds for axis"
      else
        .ok ⟨i, i + 1, 1⟩
  | .slcIdx s =>
      if s.step.getD 1 == 0 then
        .error "ValueError: slice step cannot be zero"
      else
        let r := sliceArgIndices s length
        if r.2.2 < 0 then
          .error "ValueError: the indices for a chunk cannot have negative slice steps"
        else if r.1 == r.2.1 then
          .error "ValueError: the index is empty on an axis"
        else
          .ok ⟨r.1, r.2.1, r.2.2⟩
  | .badIdx => .error "ValueError: invalid index on an axis"

def convertGo : List Nat → List IdxItem → Except String Region
  | _, [] => .ok []
  | [], _ :: _ => .ok []
  | l :: ls, it :: its => do
      let s ← convertOne l it
      let rest ← convertGo ls its
      .ok (s :: rest)

/-- `_convert_chunk_idx_to_slices(shape, idx)`: pads the index tuple with full
slices up to the array's rank and converts each axis.  (A non-tuple index is
passed as a one-element list.) -/
def convertChunkIdxToSlices (shape : List Nat) (idx : List IdxItem) :
    Except String Region :=
  if shape.length < idx.length then
    .error "IndexError: too many indices for array"
  else
    convertGo shape
      (idx ++ List.replicate (shape.length - idx.length) (IdxItem.slcIdx ⟨none, none, none⟩))

/-- Propositional membership in the arithmetic progression
`start, start + step, ...` below `stop`. -/
abbrev memS (s e st i : Int) : Prop := s ≤ i ∧ i < e ∧ st ∣ (i - s)

/-! ## The value-level model of `_DistributedArray`

Buffers are total functions on global coordinates; a chunk reads and writes its
buffer only within its index region, so the translation to chunk-local
coordinates performed by `_index_for_subindex` in the source is absorbed (the
model keeps the global coordinates).  Streams and events are dropped: the
sequential order of the model is the order the source's event edges enforce. -/

/-- A global coordinate of the logical array, one integer per axis. -/
abbrev Coord := List Int

/-- Membership of a coordinate in a region, one `inSlice` test per axis. -/
def inRegion (shape : List Nat) (r : Region) (c : Coord) : Bool :=
  r.length == shape.length && c.length == shape.length &&
    (zipWith3 (fun s len i => inSlice s len i) r shape c).all (fun x => x)

/-- Membership of a coordinate in a region taken literally (`memSlice` per
axis); agrees with `inRegion` on normalized regions. -/
def memRegion (r : Region) (c : Coord) : Bool :=
  r.length == c.length && (List.zip r c).all (fun p => memSlice p.1 p.2)

/-- Coordinate lies inside the array's shape. -/
def inShape (shape : List Nat) (c : Coord) : Bool :=
  c.length == shape.length &&
    (List.zip c shape).all (fun p => 0 ≤ p.1 && p.1 < (p.2 : Int))

/-- The consistency modes of `_MODES`: `replica` is the `None` mode of the
source, the other four are the `_OpMode` instances. -/
inductive ModeName where
  | replica
  | min
  | max
  | sum
  | prod
deriving DecidableEq, Repr

/-- `_is_op_mode`. -/
def isOpMode (m : ModeName) : Bool := m != ModeName.replica

/-- The `idempotent` flags of `_MODES` (`replica` has none and is never
consulted; `true` is arbitrary). -/
def modeIdempotent : ModeName → Bool
  | .min => true
  | .max => true
  | .sum => false
  | .prod => false
  | .replica => true

/-- The dtype-dependent values and element-wise operators an `_OpMode` draws
from `cupy`/`numpy` (`add`, `multiply`, `minimum`, `maximum`, and the
`identity_of` bounds). -/
structure DtypeOps (α : Type) where
  addOp : α → α → α
  mulOp : α → α → α
  minOp : α → α → α
  maxOp : α → α → α
  zeroVal : α
  oneVal : α
  minValue : α
  maxValue : α

/-- `mode.func` (and its host twin `mode.numpy_func`, the same operation). -/
def modeFunc (ops : DtypeOps α) : ModeName → α → α → α
  | .min => ops.minOp
  | .max => ops.maxOp
  | .sum => ops.addOp
  | .prod => ops.mulOp
  | .replica => fun v _ => v

/-- `mode.identity_of(dtype)` (`replica` has none and is never consulted). -/
def identityOf (ops : DtypeOps α) : ModeName → α
  | .min => ops.maxValue
  | .max => ops.minValue
  | .sum => ops.zeroVal
  | .prod => ops.oneVal
  | .replica => ops.zeroVal

/-- `_DataTransfer`: the transferred values.  The `ready` event and the
`prevent_gc` keep-alive order and protect the transfer; they carry no value. -/
structure DataTransfer (α : Type) where
  data : Coord → α

/-- A pending update of `_Chunk.updates`: payload and target region (the source
stores the region in chunk-local coordinates; the model keeps it global). -/
abbrev PendingUpdate (α : Type) := DataTransfer α × Region

/-- `_Chunk`: buffer, index region and queued updates (the owning stream is
dropped). -/
structure Chunk (α : Type) where
  data : Coord → α
  index : Region
  updates : List (PendingUpdate α)

/-- `_ManagedData.copy` / `_Chunk.copy`: a fresh buffer holding the same
values, on a fresh stream ordered after the source; at value level, the same
chunk. -/
def copyChunk (c : Chunk α) : Chunk α :=
  ⟨c.data, c.index, c.updates⟩

/-- `_DistributedArray._transfer_async`: moves values to the destination
device; the values are unchanged. -/
def transferAsync (src : Coord → α) : DataTransfer α :=
  ⟨src⟩

/-- One step of `_apply_updates`: overwrite the update's region in replica
mode, combine element-wise with `mode.func` in an op mode. -/
def applyOneUpdate (ops : DtypeOps α) (mode : ModeName) (shape : List Nat)
    (d : Coord → α) (u : PendingUpdate α) : Coord → α :=
  fun c =>
    if inRegion shape u.2 c then
      if isOpMode mode then modeFunc ops mode (d c) (u.1.data c) else u.1.data c
    else d c

/-- `_apply_updates(chunk, mode)`: drain the queue in insertion order, then
clear it. -/
def applyUpdates (ops : DtypeOps α) (mode : ModeName) (shape : List Nat)
    (chunk : Chunk α) : Chunk α :=
  ⟨chunk.updates.foldl (applyOneUpdate ops mode shape) chunk.data, chunk.index, []⟩

/-- `_DistributedArray._apply_and_update_chunks(op_mode, shape, src, dst)`:
no-op on empty intersection; otherwise enqueue the transferred intersected
sub-region on `dst` (deferred), and for a non-idempotent mode overwrite the
copied region of `src` with the identity afterwards (the payload was copied
out first: the model captures it by value before the overwrite). -/
def applyAndUpdateChunks (ops : DtypeOps α) (opMode : ModeName) (shape : List Nat)
    (src dst : Chunk α) : Chunk α × Chunk α :=
  match indexIntersection src.index dst.index shape with
  | none => (src, dst)
  | some intersection =>
      let update := transferAsync src.data
      let dst' : Chunk α := ⟨dst.data, dst.index, dst.updates ++ [(update, intersection)]⟩
      let src' : Chunk α :=
        if modeIdempotent opMode then src
        else
          ⟨fun c => if inRegion shape intersection c then identityOf ops opMode else src.data c,
            src.index, src.updates⟩
      (src', dst')

/-- `_DistributedArray._copy_on_intersection(shape, src, dst)` (the source
asserts `src` has no pending updates). -/
def copyOnIntersection (shape : List Nat) (src dst : Chunk α) : Chunk α :=
  match indexIntersection src.index dst.index shape with
  | none => dst
  | some intersection =>
      ⟨dst.data, dst.index, dst.updates ++ [(transferAsync src.data, intersection)]⟩

/-- `_DistributedArray._set_identity_on_intersection(shape, identity, a, b_idx)`. -/
def setIdentityOnIntersection (shape : List Nat) (identity : α)
    (a : Chunk α) (bIdx : Region) : Chunk α :=
  match indexIntersection a.index bIdx shape with
  | none => a
  | some intersection =>
      ⟨fun c => if inRegion shape intersection c then identity else a.data c,
        a.index, a.updates⟩

/-- `_DistributedArray._set_identity_on_ignored_entries(identity, chunk)`:
overwrite the regions of all queued updates with the identity (the queue
itself is kept). -/
def setIdentityOnIgnoredEntries (shape : List Nat) (identity : α)
    (chunk : Chunk α) : Chunk α :=
  ⟨chunk.updates.foldl (fun d u => fun c => if inRegion shape u.2 c then identity else d c)
      chunk.data,
    chunk.index, chunk.updates⟩

/-- Inner loop of the forward pass of `_all_reduce_intersections`: apply `src`
onto every later chunk, threading the (possibly identity-reset) `src` through. -/
def forwardApply (ops : DtypeOps α) (opMode : ModeName) (shape : List Nat)
    (src : Chunk α) : List (Chunk α) → Chunk α × List (Chunk α)
  | [] => (src, [])
  | dst :: rest =>
      let sd := applyAndUpdateChunks ops opMode shape src dst
      let srest := forwardApply ops opMode shape sd.1 rest
      (srest.1, sd.2 :: srest.2)

/-- Forward pass of `_all_reduce_intersections`: for `i = 0..n-1`, drain chunk
`i` under the op mode, then apply it onto every chunk `j > i`.  The first
argument counts the remaining chunks (`forwardApply` preserves the list
length, so the count never runs out when started at the list's length). -/
def forwardPassAux (ops : DtypeOps α) (opMode : ModeName) (shape : List Nat) :
    Nat → List (Chunk α) → List (Chunk α)
  | 0, l => l
  | _ + 1, [] => []
  | n + 1, chunk :: rest =>
      let chunk' := applyUpdates ops opMode shape chunk
      let sr := forwardApply ops opMode shape chunk' rest
      sr.1 :: forwardPassAux ops opMode shape n sr.2

def forwardPass (ops : DtypeOps α) (opMode : ModeName) (shape : List Nat)
    (chunks : List (Chunk α)) : List (Chunk α) :=
  forwardPassAux ops opMode shape chunks.length chunks

/-- Backward pass of `_all_reduce_intersections`, written on the reversed list:
for `j = n-1..0`, drain chunk `j` under replica semantics, then copy it onto
every chunk `i < j`.  The count argument plays the same role as in
`forwardPassAux`. -/
def backwardRevAux (ops : DtypeOps α) (shape : List Nat) :
    Nat → List (Chunk α) → List (Chunk α)
  | 0, l => l
  | _ + 1, [] => []
  | n + 1, chunk :: rest =>
      let chunk' := applyUpdates ops ModeName.replica shape chunk
      chunk' :: backwardRevAux ops shape n (rest.map (fun d => copyOnIntersection shape chunk' d))

def backwardRev (ops : DtypeOps α) (shape : List Nat) (chunks : List (Chunk α)) :
    List (Chunk α) :=
  backwardRevAux ops shape chunks.length chunks

/-- `_all_reduce_intersections` on the flattened chunk list. -/
def allReduceList (ops : DtypeOps α) (opMode : ModeName) (shape : List Nat)
    (chunks : List (Chunk α)) : List (Chunk α) :=
  (backwardRev ops shape (forwardPass ops opMode shape chunks).reverse).reverse

/-- `dict[int, list[_Chunk]]` with the dict rendered as an insertion-ordered
association list. -/
abbrev ChunksMap (α : Type) := List (Nat × List (Chunk α))

/-- The flattened, device-ordered chunk list
`[chunk for chunks in chunk_map.values() for chunk in chunks]`. -/
def flattenChunks (m : ChunksMap α) : List (Chunk α) :=
  (m.map Prod.snd).flatten

/-- Reassemble a processed flat chunk list into the per-device structure of the
original map (the source mutates the chunks inside the dict in place). -/
def unflattenChunks (m : ChunksMap α) (l : List (Chunk α)) : ChunksMap α :=
  match m with
  | [] => []
  | (dev, chunks) :: rest =>
      (dev, l.take chunks.length) :: unflattenChunks rest (l.drop chunks.length)

/-- `_all_reduce_intersections(op_mode, shape, chunk_map)`. -/
def allReduceIntersections (ops : DtypeOps α) (opMode : ModeName) (shape : List Nat)
    (m : ChunksMap α) : ChunksMap α :=
  unflattenChunks m (allReduceList ops opMode shape (flattenChunks m))

/-- `_DistributedArray`: shape, chunk map and mode.  The dtype is the `α` the
model is instantiated at; the NCCL communicator handles carry no value. -/
structure DArray (α : Type) where
  shape : List Nat
  chunksMap : ChunksMap α
  mode : ModeName

/-- `_DistributedArray._copy_chunks_map`. -/
def copyChunksMap (m : ChunksMap α) : ChunksMap α :=
  m.map (fun p => (p.1, p.2.map copyChunk))

/-- Drain every chunk of a map under `mode`. -/
def drainChunksMap (ops : DtypeOps α) (mode : ModeName) (shape : List Nat)
    (m : ChunksMap α) : ChunksMap α :=
  m.map (fun p => (p.1, p.2.map (applyUpdates ops mode shape)))

/-- `_DistributedArray._replica_mode_chunks_map`. -/
def replicaModeChunksMap (ops : DtypeOps α) (arr : DArray α) : ChunksMap α :=
  let m := copyChunksMap arr.chunksMap
  if isOpMode arr.mode then allReduceIntersections ops arr.mode arr.shape m else m

/-- Pairwise loop of `_op_mode_chunks_map`: for `i < j`, overwrite chunk `i`
with the identity wherever it intersects chunk `j`, threading chunk `i` through
its inner loop. -/
def opModeFix (shape : List Nat) (identity : α) : List (Chunk α) → List (Chunk α)
  | [] => []
  | a :: rest =>
      (rest.foldl (fun acc b => setIdentityOnIntersection shape identity acc b.index) a) ::
        opModeFix shape identity rest

/-- `_DistributedArray._op_mode_chunks_map(op_mode)`. -/
def opModeChunksMap (ops : DtypeOps α) (arr : DArray α) (opMode : ModeName) : ChunksMap α :=
  if arr.mode == opMode then copyChunksMap arr.chunksMap
  else
    let m := drainChunksMap ops ModeName.replica arr.shape (replicaModeChunksMap ops arr)
    unflattenChunks m (opModeFix arr.shape (identityOf ops opMode) (flattenChunks m))

/-- `_DistributedArray.to_replica_mode` (returns `self` when already replica). -/
def toReplicaMode (ops : DtypeOps α) (arr : DArray α) : DArray α :=
  if arr.mode == ModeName.replica then arr
  else ⟨arr.shape, replicaModeChunksMap ops arr, ModeName.replica⟩

/-- `_DistributedArray.change_mode(mode)` (mode names are validated by the
source against `_MODES`; `ModeName` makes invalid names unrepresentable). -/
def changeMode (ops : DtypeOps α) (arr : DArray α) (mode : ModeName) : DArray α :=
  if mode == arr.mode then arr
  else if isOpMode mode then ⟨arr.shape, opModeChunksMap ops arr mode, mode⟩
  else ⟨arr.shape, replicaModeChunksMap ops arr, mode⟩

/-- One chunk's write into the host buffer during `asnumpy`:
`np_array[idx] = op(np_array[idx], data)` in an op mode, plain overwrite in
replica mode. -/
def asnumpyStep (ops : DtypeOps α) (mode : ModeName) (shape : List Nat)
    (np : Coord → Option α) (chunk : Chunk α) : Coord → Option α :=
  fun c =>
    if inRegion shape chunk.index c then
      if isOpMode mode then (np c).map (fun v => modeFunc ops mode v (chunk.data c))
      else some (chunk.data c)
    else np c

/-- `_DistributedArray.asnumpy()`: drain all chunks, then fold them into a host
buffer — identity-filled for an op mode, uninitialized (`none`) for replica —
with overwrite or operator-reduce semantics per chunk. -/
def asnumpyModel (ops : DtypeOps α) (arr : DArray α) : Coord → Option α :=
  let m := drainChunksMap ops arr.mode arr.shape arr.chunksMap
  let init : Coord → Option α :=
    if isOpMode arr.mode then fun _ => some (identityOf ops arr.mode) else fun _ => none
  (flattenChunks m).foldl (asnumpyStep ops arr.mode arr.shape) init

/-- All regions of an index map, in device-then-chunk order. -/
def flatRegions (nim : List (Nat × List Region)) : List Region :=
  (nim.map Prod.snd).flatten

/-- The coordinates of one axis, `0 .. n-1`. -/
def axisCoords : Nat → List Int
  | 0 => []
  | n + 1 => axisCoords n ++ [((n : Nat) : Int)]

/-- Every coordinate of a shape. -/
def allCoords : List Nat → List Coord
  | [] => [[]]
  | n :: rest =>
      ((axisCoords n).map (fun i => (allCoords rest).map (fun c => i :: c))).flatten

/-- Executable coverage test: every coordinate of the shape lies in some region
of the index map. -/
def coversB (shape : List Nat) (nim : List (Nat × List Region)) : Bool :=
  (allCoords shape).all (fun c => (flatRegions nim).any (fun r => inRegion shape r c))

def pairwiseB (p : α → α → Bool) : List α → Bool
  | [] => true
  | x :: xs => xs.all (p x) && pairwiseB p xs

/-- Two regions share no coordinate. -/
def regionsDisjoint (shape : List Nat) (r1 r2 : Region) : Prop :=
  ∀ c : Coord, ¬(inRegion shape r1 c = true ∧ inRegion shape r2 c = true)

/-- Executable pairwise-disjointness test via the index algebra itself. -/
def disjointB (shape : List Nat) (nim : List (Nat × List Region)) : Bool :=
  pairwiseB (fun r1 r2 =>
      indexIntersection r1 r2 shape == none && indexIntersection r2 r1 shape == none)
    (flatRegions nim)

/-- The sort key `[s.indices(l) for s, l in zip(slices, shape)]` used when a
device's chunk regions are ordered. -/
def regionKey (shape : List Nat) (r : Region) : List (Int × Int × Int) :=
  (List.zip r shape).map (fun p => pyIndices p.1 p.2)

def tripleLe (a b : Int × Int × Int) : Bool :=
  if a.1 ≠ b.1 then a.1 < b.1
  else if a.2.1 ≠ b.2.1 then a.2.1 < b.2.1
  else a.2.2 ≤ b.2.2

/-- Lexicographic comparison of sort keys (Python list comparison). -/
def keyLe : List (Int × Int × Int) → List (Int × Int × Int) → Bool
  | [], _ => true
  | _ :: _, [] => false
  | a :: as, b :: bs => if a = b then keyLe as bs else tripleLe a b

/-- Stable insertion used by the model's rendering of `list.sort(key=...)`. -/
def insertSorted (le : α → α → Bool) (x : α) : List α → List α
  | [] => [x]
  | y :: ys => if le y x then y :: insertSorted le x ys else x :: y :: ys

def sortRegions (shape : List Nat) (idxs : List Region) : List Region :=
  idxs.foldl
    (fun acc r => insertSorted (fun r1 r2 => keyLe (regionKey shape r1) (regionKey shape r2)) r acc)
    []

/-- The index-map conversion loop shared by `distributed_array` (and
`reshard`): convert every chunk index of every device and sort each device's
list by the normalized key.  A bare (non-list) region is passed as a
one-element list. -/
def convertIndexMap (shape : List Nat) :
    List (Nat × List (List IdxItem)) → Except String (List (Nat × List Region))
  | [] => .ok []
  | (dev, idxs) :: rest => do
      let rs ← idxs.mapM (convertChunkIdxToSlices shape)
      let rest' ← convertIndexMap shape rest
      .ok ((dev, sortRegions shape rs) :: rest')

/-- The chunk-extraction loop of `distributed_array` for one device: slice the
working host array (captured by value, as `cupy.array` copies it to the
device), then, in a non-idempotent mode, reset the just-sharded region of the
working array to the identity. -/
def extractChunks (ops : DtypeOps α) (mode : ModeName) (shape : List Nat) :
    (Coord → α) → List Region → List (Chunk α) × (Coord → α)
  | arr, [] => ([], arr)
  | arr, idx :: rest =>
      let chunk : Chunk α := ⟨arr, idx, []⟩
      let arr' :=
        if isOpMode mode && !modeIdempotent mode then
          fun c => if inRegion shape idx c then identityOf ops mode else arr c
        else arr
      let cr := extractChunks ops mode shape arr' rest
      (chunk :: cr.1, cr.2)

/-- The device loop of `distributed_array`, threading the working array. -/
def shardLoop (ops : DtypeOps α) (mode : ModeName) (shape : List Nat) :
    (Coord → α) → List (Nat × List Region) → ChunksMap α × (Coord → α)
  | arr, [] => ([], arr)
  | arr, (dev, idxs) :: rest =>
      let cr := extractChunks ops mode shape arr idxs
      let mr := shardLoop ops mode shape cr.2 rest
      ((dev, cr.1) :: mr.1, mr.2)

/-- `distributed_array(array, index_map, mode)`: validates and sorts the index
map, shards the source array into per-device chunks, and — in a non-idempotent
mode — resets each already-sharded region of its *private working copy* to the
identity.  `isNdarray` tells whether the caller passed an `ndarray` (otherwise
`numpy.array(array)` makes a fresh buffer); the second component of the result
is the buffer the caller's argument holds after the call. -/
def distributedArray (ops : DtypeOps α) (isNdarray : Bool) (hostArray : Coord → α)
    (shape : List Nat) (indexMap : List (Nat × List (List IdxItem)))
    (mode : ModeName) : Except String (DArray α × (Coord → α)) := do
  let freshBuffer := !isNdarray || mode != ModeName.replica
  let nim ← convertIndexMap shape indexMap
  let cm := shardLoop ops mode shape hostArray nim
  .ok (⟨shape, cm.1, mode⟩, if freshBuffer then hostArray else cm.2)

/-- Position of an operand of `_execute_kernel`: positional index or keyword. -/
inductive ArgKey where
  | pos (i : Nat)
  | kw (k : String)
deriving DecidableEq, Repr

/-- An operand of `_execute_kernel`: a distributed array or a plain
`cupy.ndarray` (whose contents never matter — mixed calls are rejected). -/
inductive KArg (α : Type) where
  | distArr (a : DArray α)
  | ndarray (shape : List Nat)

def kargShape : KArg α → List Nat
  | .distArr a => a.shape
  | .ndarray s => s

/-- `_DistributedArray.index_map`. -/
def indexMapOf (arr : DArray α) : List (Nat × List Region) :=
  arr.chunksMap.map (fun p => (p.1, p.2.map Chunk.index))

/-- The chunks the array holds on one device (`_chunks_map[dev]`). -/
def chunksOn (arr : DArray α) (dev : Nat) : List (Chunk α) :=
  (arr.chunksMap.lookup dev).getD []

/-- `_chunks_map[dev][chunk_i]`. -/
def chunkAt [Inhabited α] (arr : DArray α) (dev chunkI : Nat) : Chunk α :=
  (chunksOn arr dev).getD chunkI ⟨fun _ => default, [], []⟩

/-- Positional-argument classification loop of `_execute_kernel`: shape check
for every operand, index-map check and conversion to replica mode for
distributed operands. -/
def classifyPos (ops : DtypeOps α) (selfShape : List Nat)
    (selfIndexMap : List (Nat × List Region)) :
    Nat → List (KArg α) → Except String (List (ArgKey × DArray α) × List ArgKey)
  | _, [] => .ok ([], [])
  | i, arg :: rest =>
      if kargShape arg ≠ selfShape then .error "Mismatched shapes"
      else
        match arg with
        | .distArr a =>
            if indexMapOf a ≠ selfIndexMap then .error "Mismatched index_map"
            else do
              let dr ← classifyPos ops selfShape selfIndexMap (i + 1) rest
              .ok ((ArgKey.pos i, toReplicaMode ops a) :: dr.1, dr.2)
        | .ndarray _ => do
            let dr ← classifyPos ops selfShape selfIndexMap (i + 1) rest
            .ok (dr.1, ArgKey.pos i :: dr.2)

/-- Keyword-argument classification loop of `_execute_kernel`.  The source
checks `arg.index_map` before testing the operand's type, so a plain `ndarray`
keyword fails with an `AttributeError`; a distributed keyword operand is
appended VERBATIM — `to_replica_mode` is not applied on this path. -/
def classifyKw (selfShape : List Nat) (selfIndexMap : List (Nat × List Region)) :
    List (String × KArg α) → Except String (List (ArgKey × DArray α))
  | [] => .ok []
  | (k, arg) :: rest =>
      if kargShape arg ≠ selfShape then .error "Mismatched shapes"
      else
        match arg with
        | .distArr a =>
            if indexMapOf a ≠ selfIndexMap then .error "Mismatched index_map"
            else do
              let dr ← classifyKw selfShape selfIndexMap rest
              .ok ((ArgKey.kw k, a) :: dr)
        | .ndarray _ =>
            .error "AttributeError: ndarray object has no attribute index_map"

/-- `_DistributedArray._count_chunks_on_devices`. -/
def countChunks (distArgs : List (ArgKey × DArray α)) :
    Except String (List (Nat × Nat)) :=
  distArgs.foldlM
    (fun counts p =>
      p.2.chunksMap.foldlM
        (fun counts q =>
          match counts.lookup q.1 with
          | none => .ok (counts ++ [(q.1, q.2.length)])
          | some n =>
              if n == q.2.length then .ok counts
              else .error "Chunks have different shapes")
        counts)
    []

/-- The scan of `_prepare_updates` over the distributed operands: remember the
first operand whose chunk has queued updates; a second one aborts the scan. -/
def scanUpdates [Inhabited α] (dev chunkI : Nat)
    (acc : Option ArgKey × List (PendingUpdate α)) :
    List (ArgKey × DArray α) → Option ArgKey × List (PendingUpdate α) × Bool
  | [] => (acc.1, acc.2, true)
  | (i, arg) :: rest =>
      let updatesNow := (chunkAt arg dev chunkI).updates
      if updatesNow.isEmpty then scanUpdates dev chunkI acc rest
      else if acc.2.isEmpty then scanUpdates dev chunkI (some i, updatesNow) rest
      else (acc.1, acc.2, false)

/-- The in-place eager drain `_prepare_updates` performs on every distributed
operand's chunks of the current device when two or more operands carry
updates. -/
def drainArgsOnDev (ops : DtypeOps α) (shape : List Nat) (dev : Nat)
    (arr : DArray α) : DArray α :=
  ⟨arr.shape,
    arr.chunksMap.map (fun p =>
      if p.1 == dev then (p.1, p.2.map (applyUpdates ops ModeName.replica shape)) else p),
    arr.mode⟩

/-- `_DistributedArray._prepare_updates`: returns the (at most one) operand key
with pending updates and those updates; with two or more such operands,
eagerly drains all operands' chunks on this device and reports none. -/
def prepareUpdates [Inhabited α] (ops : DtypeOps α) (shape : List Nat)
    (distArgs : List (ArgKey × DArray α)) (dev chunkI : Nat) :
    (Option ArgKey × List (PendingUpdate α)) × List (ArgKey × DArray α) :=
  let r := scanUpdates dev chunkI (none, []) distArgs
  if r.2.2 then ((r.1, r.2.1), distArgs)
  else ((none, []), distArgs.map (fun p => (p.1, drainArgsOnDev ops shape dev p.2)))

/-- The operand keyed `key` among the distributed operands. -/
def distLookup [Inhabited α] (distArgs : List (ArgKey × DArray α)) (key : ArgKey) :
    DArray α :=
  ((distArgs.find? (fun p => p.1 == key)).map Prod.snd).getD ⟨[], [], ModeName.replica⟩

/-- Pointwise application of an elementwise kernel to positional and keyword
buffers. -/
def kernelApply (kernel : List α → List (String × α) → α)
    (posData : List (Coord → α)) (kwData : List (String × (Coord → α))) :
    Coord → α :=
  fun c => kernel (posData.map (fun d => d c)) (kwData.map (fun p => (p.1, p.2 c)))

/-- The per-chunk body of `_execute_kernel`'s main loop: run the kernel on the
chunk buffers (after `_prepare_updates` possibly drained them in place), and
run it once more per queued update of the single update-carrying operand,
queueing each result as an update on the output chunk. -/
def execChunk [Inhabited α] (ops : DtypeOps α) (self : DArray α)
    (kernel : List α → List (String × α) → α) (nPos : Nat) (kwKeys : List String)
    (dev chunkI : Nat) (distArgs : List (ArgKey × DArray α)) :
    Chunk α × List (ArgKey × DArray α) :=
  let pu := prepareUpdates ops self.shape distArgs dev chunkI
  let incomingIndex := pu.1.1
  let updateMap := pu.1.2
  let distArgs' := pu.2
  let baseData := fun key => (chunkAt (distLookup distArgs' key) dev chunkI).data
  let posData := (List.range nPos).map (fun i => baseData (ArgKey.pos i))
  let kwData := kwKeys.map (fun k => (k, baseData (ArgKey.kw k)))
  let outIndex := (((indexMapOf self).lookup dev).getD []).getD chunkI []
  let newUpdates := updateMap.map (fun u =>
    let posSlice := (List.range nPos).map (fun i =>
      if incomingIndex == some (ArgKey.pos i) then u.1.data else baseData (ArgKey.pos i))
    let kwSlice := kwKeys.map (fun k =>
      if incomingIndex == some (ArgKey.kw k) then (k, u.1.data) else (k, baseData (ArgKey.kw k)))
    ((⟨kernelApply kernel posSlice kwSlice⟩ : DataTransfer α), u.2))
  (⟨kernelApply kernel posData kwData, outIndex, newUpdates⟩, distArgs')

/-- The chunk loop of `_execute_kernel` for one device (`chunk_i` ascending),
threading the operand state mutated by eager drains. -/
def execChunksFrom [Inhabited α] (ops : DtypeOps α) (self : DArray α)
    (kernel : List α → List (String × α) → α) (nPos : Nat) (kwKeys : List String)
    (dev : Nat) (chunkI : Nat) :
    Nat → List (ArgKey × DArray α) → List (Chunk α) × List (ArgKey × DArray α)
  | 0, ds => ([], ds)
  | n + 1, ds =>
      let cd := execChunk ops self kernel nPos kwKeys dev chunkI ds
      let rest := execChunksFrom ops self kernel nPos kwKeys dev (chunkI + 1) n cd.2
      (cd.1 :: rest.1, rest.2)

/-- The device loop of `_execute_kernel`. -/
def execDevs [Inhabited α] (ops : DtypeOps α) (self : DArray α)
    (kernel : List α → List (String × α) → α) (nPos : Nat) (kwKeys : List String) :
    List (Nat × Nat) → List (ArgKey × DArray α) → ChunksMap α × List (ArgKey × DArray α)
  | [], ds => ([], ds)
  | (dev, chunkCount) :: rest, ds =>
      let cd := execChunksFrom ops self kernel nPos kwKeys dev 0 chunkCount ds
      let md := execDevs ops self kernel nPos kwKeys rest cd.2
      ((dev, cd.1) :: md.1, md.2)

/-- `_DistributedArray._execute_kernel(kernel, args, kwargs)` (`self` is the
array whose override hook was invoked).  The result is always a replica-mode
array; the kernel's output dtype is the model's `α`. -/
def executeKernel [Inhabited α] (ops : DtypeOps α) (self : DArray α)
    (kernel : List α → List (String × α) → α)
    (args : List (KArg α)) (kwargs : List (String × KArg α)) :
    Except String (DArray α) := do
  let pr ← classifyPos ops self.shape (indexMapOf self) 0 args
  let kd ← classifyKw self.shape (indexMapOf self) kwargs
  let distArgs := pr.1 ++ kd
  let counts ← countChunks distArgs
  if pr.2 ≠ [] ∧ counts.any (fun p => 0 < p.2) then
    .error "Mix cupy.ndarray with distributed arrays is currently not supported"
  else
    let nm := execDevs ops self kernel args.length (kwargs.map Prod.fst) counts distArgs
    .ok ⟨self.shape, nm.1, ModeName.replica⟩

/-- The elements a normalized slice selects, in ascending order. -/
def sliceElems (s : PySlice) : List Int :=
  (List.range ((s.stop - s.start - 1) / s.step + 1).toNat).map
    (fun k => s.start + s.step * (k : Int))

/-- Reduction of a chunk buffer along `axis` with the binary operator `f`:
the fold of the axis elements of the region `idx`. -/
def reduceAlongAxis [Inhabited α] (f : α → α → α) (axis : Nat) (idx : Region)
    (d : Coord → α) : Coord → α :=
  fun c =>
    match (sliceElems ((idx.getD axis ⟨0, 0, 1⟩))).map
        (fun i => d (c.take axis ++ i :: c.drop axis)) with
    | [] => default
    | v :: vs => vs.foldl f v

/-- The binary operator of the four reduction kernels the override supports. -/
def reductionOp (ops : DtypeOps α) (kernelName : String) : α → α → α :=
  if kernelName == "cupy_max" then ops.maxOp
  else if kernelName == "cupy_min" then ops.minOp
  else if kernelName == "cupy_sum" then ops.addOp
  else ops.mulOp

/-- The mode/chunks-map dispatch of `__cupy_override_reduction_kernel__`:
returns the mode of the result, the chunk map to reduce, and whether
duplicated entries must be overwritten with the identity first. -/
def reductionDispatch (ops : DtypeOps α) (self : DArray α) (kernelName : String) :
    Except String (ModeName × ChunksMap α × Bool) :=
  if kernelName == "cupy_max" then
    if self.mode == ModeName.max then .ok (ModeName.max, copyChunksMap self.chunksMap, false)
    else .ok (ModeName.max, replicaModeChunksMap ops self, true)
  else if kernelName == "cupy_min" then
    if self.mode == ModeName.min then .ok (ModeName.min, copyChunksMap self.chunksMap, false)
    else .ok (ModeName.min, replicaModeChunksMap ops self, true)
  else if kernelName == "cupy_sum" then
    .ok (ModeName.sum, opModeChunksMap ops self ModeName.sum, false)
  else if kernelName == "cupy_prod" then
    .ok (ModeName.prod, opModeChunksMap ops self ModeName.prod, false)
  else .error "Unsupported kernel"

/-- Reduce one chunk along `axis`: the base buffer and every queued update are
reduced, the axis is removed from the index regions. -/
def reduceChunk [Inhabited α] (op : α → α → α) (axis : Nat) (chunk : Chunk α) : Chunk α :=
  ⟨reduceAlongAxis op axis chunk.index chunk.data,
    chunk.index.take axis ++ chunk.index.drop (axis + 1),
    chunk.updates.map (fun u =>
      (⟨reduceAlongAxis op axis u.2 u.1.data⟩,
        u.2.take axis ++ u.2.drop (axis + 1)))⟩

/-- `_DistributedArray.__cupy_override_reduction_kernel__(kernel, axis, dtype,
out, keepdims)`: rejects `out` and `keepdims` before anything else, then
dispatches on the kernel name and reduces every chunk along `axis`. -/
def cupyOverrideReductionKernel [Inhabited α] (ops : DtypeOps α) (self : DArray α)
    (kernelName : String) (axis : Nat) (out : Option Unit) (keepdims : Bool) :
    Except String (DArray α) :=
  if out.isSome then .error "Argument out is not supported"
  else if keepdims then .error "keepdims is not supported"
  else do
    let dis ← reductionDispatch ops self kernelName
    let mode := dis.1
    let chunksMap :=
      if dis.2.2 then
        dis.2.1.map (fun p =>
          (p.1, p.2.map (setIdentityOnIgnoredEntries self.shape (identityOf ops mode))))
      else dis.2.1
    let newShape := self.shape.take axis ++ self.shape.drop (axis + 1)
    let newMap := chunksMap.map (fun p =>
      (p.1, p.2.map (reduceChunk (reductionOp ops kernelName) axis)))
    .ok ⟨newShape, newMap, mode⟩

/-- Eagerly drain every chunk of an array under its own mode (the reference
behaviour the lazy kernel execution is compared against). -/
def drainArray (ops : DtypeOps α) (arr : DArray α) : DArray α :=
  ⟨arr.shape, drainChunksMap ops arr.mode arr.shape arr.chunksMap, arr.mode⟩

/-- The dtype operations instantiated at `Int` (an `int32`-flavoured dtype),
for concrete runs of the model. -/
def intOps : DtypeOps Int :=
  ⟨(· + ·), (· * ·), fun a b => min a b, fun a b => max a b, 0, 1, -2147483648, 2147483647⟩

/-- A concrete host array for example runs. -/
def demoHost : Coord → Int := fun c => c.headD 0 * 5 + 2

/-- A concrete two-device index map splitting axis 0 of shape `(2,)`. -/
def demoIndexMap : List (Nat × List (List IdxItem)) :=
  [(0, [[IdxItem.slcIdx ⟨some 0, some 1, none⟩]]),
   (1, [[IdxItem.slcIdx ⟨some 1, some 2, none⟩]])]

/-- The converted form of `demoIndexMap`. -/
def demoNim : List (Nat × List Region) :=
  [(0, [[⟨0, 1, 1⟩]]), (1, [[⟨1, 2, 1⟩]])]

/-- The distributed array `distributed_array(demoHost, demoIndexMap, "sum")`
builds: the second device's chunk was sliced from the working copy after the
first device's region had been reset to the identity. -/
def demoArray : DArray Int :=
  ⟨[2],
    [(0, [⟨demoHost, [⟨0, 1, 1⟩], []⟩]),
     (1, [⟨fun c => if inRegion [2] [⟨0, 1, 1⟩] c then identityOf intOps ModeName.sum
            else demoHost c,
          [⟨1, 2, 1⟩], []⟩])],
    ModeName.sum⟩

/-- `distributed_array(array, index_map)` fixtures for kernel runs: a
replica-mode array and a sum-mode array over the same two-device index map, and
a kernel reading its keyword operand. -/
def kwSelf : DArray Int :=
  ⟨[1],
    [(0, [⟨fun _ => 100, [⟨0, 1, 1⟩], []⟩]),
     (1, [⟨fun _ => 100, [⟨0, 1, 1⟩], []⟩])],
    ModeName.replica⟩

/-- A sum-mode operand whose two chunks hold the partial values `3` and `4`
(logical replica value `7`). -/
def kwOperand : DArray Int :=
  ⟨[1],
    [(0, [⟨fun _ => 3, [⟨0, 1, 1⟩], []⟩]),
     (1, [⟨fun _ => 4, [⟨0, 1, 1⟩], []⟩])],
    ModeName.sum⟩

/-- An elementwise kernel that returns its (single) keyword operand. -/
def kwKernel : List Int → List (String × Int) → Int :=
  fun _ kw => ((kw.head?).map Prod.snd).getD 0

/-- The total number of queued updates across all chunks of an array. -/
def totalUpdates (arr : DArray α) : Nat :=
  ((flattenChunks arr.chunksMap).map (fun ch => ch.updates.length)).sum

/-- One step of `_count_chunks_on_devices` on the `(device, chunk count)`
projection of an operand's chunk map. -/
def countProjStep (counts : List (Nat × Nat)) (q : Nat × Nat) :
    Except String (List (Nat × Nat)) :=
  match counts.lookup q.1 with
  | none => .ok (counts ++ [q])
  | some n => if n == q.2 then .ok counts else .error "Chunks have different shapes"

/-- `_count_chunks_on_devices` on the projected chunk maps; the count depends
on nothing else. -/
def countProj (ls : List (List (Nat × Nat))) : Except String (List (Nat × Nat)) :=
  ls.foldlM (fun counts l => l.foldlM countProjStep counts) []

/-- Concrete operands for a lazy-kernel run: `wX` is update-free. -/
def wX : DArray Int :=
  ⟨[1], [(0, [⟨fun _ => 5, [⟨0, 1, 1⟩], []⟩])], ModeName.replica⟩

/-- `wY` carries one pending update (payload `9` over the whole shape). -/
def wY : DArray Int :=
  ⟨[1], [(0, [⟨fun _ => 7, [⟨0, 1, 1⟩], [(⟨fun _ => 9⟩, [⟨0, 1, 1⟩])]⟩])],
    ModeName.replica⟩

/-- The elementwise sum of the positional operands. -/
def wKernel : List Int → List (String × Int) → Int :=
  fun p _ => p.sum

/-- The output of the lazy run of `wKernel` on `wX` and `wY`: the kernel ran on
the base buffers (`5 + 7`) and once more per pending update (`5 + 9`), queueing
the latter as an update on the output chunk. -/
def wR1 : DArray Int :=
  ⟨[1], [(0, [⟨fun _ => 12, [⟨0, 1, 1⟩], [(⟨fun _ => 14⟩, [⟨0, 1, 1⟩])]⟩])],
    ModeName.replica⟩

/-!  ## Theorems  -/

theorem emod_eq_zero_iff (a b : Int) : a % b = 0 ↔ b ∣ a :=
  ⟨Int.dvd_of_emod_eq_zero, Int.emod_eq_zero_of_dvd⟩

theorem memSlice_iff (s : PySlice) (i : Int) :
    memSlice s i = true ↔ memS s.start s.stop s.step i := by
  simp [memSlice, memS, Bool.and_eq_true, decide_eq_true_eq, emod_eq_zero_iff,
    and_assoc]

theorem extgcdAux_fst (fuel : Nat) : ∀ (c d : Nat) (x u : Int), d ≤ fuel →
    ((extgcdAux fuel c d x u).1 : Nat) = Nat.gcd c d := by
  induction fuel with
  | zero =>
      intro c d x u h
      have hd : d = 0 := Nat.le_zero.mp h
      subst hd
      simp [extgcdAux]
  | succ fuel ih =>
      intro c d x u h
      match d with
      | 0 => simp [extgcdAux]
      | d + 1 =>
          have hlt : c % (d + 1) ≤ fuel := by
            have h2 : c % (d + 1) < d + 1 := Nat.mod_lt _ (by omega)
            omega
          rw [extgcdAux, ih (d + 1) (c % (d + 1)) _ _ hlt]
          rw [Nat.gcd_comm (d + 1) (c % (d + 1)), ← Nat.gcd_rec, Nat.gcd_comm]

theorem extgcdAux_bezout (A B : Int) (fuel : Nat) : ∀ (c d : Nat) (x u : Int),
    d ≤ fuel → B ∣ ((c : Int) - A * x) → B ∣ ((d : Int) - A * u) →
    B ∣ (((extgcdAux fuel c d x u).1 : Int) - A * (extgcdAux fuel c d x u).2) := by
  induction fuel with
  | zero =>
      intro c d x u h hc hd
      have hd0 : d = 0 := Nat.le_zero.mp h
      subst hd0
      simpa [extgcdAux] using hc
  | succ fuel ih =>
      intro c d x u h hc hd
      match d with
      | 0 => simpa [extgcdAux] using hc
      | d + 1 =>
          have hlt : c % (d + 1) ≤ fuel := by
            have h2 : c % (d + 1) < d + 1 := Nat.mod_lt _ (by omega)
            omega
          rw [extgcdAux]
          apply ih (d + 1) (c % (d + 1)) _ _ hlt hd
          have hsplit : ((c % (d + 1) : Nat) : Int) =
              (c : Int) - ((d + 1 : Nat) : Int) * ((c / (d + 1) : Nat) : Int) := by
            have hnat := Nat.div_add_mod c (d + 1)
            have h2 : (((d + 1) * (c / (d + 1)) + c % (d + 1) : Nat) : Int) = (c : Int) := by
              exact_mod_cast congrArg (fun n : Nat => (n : Int)) hnat
            push_cast at h2 ⊢
            linarith
          rw [hsplit]
          have heq : (c : Int) - ((d + 1 : Nat) : Int) * ((c / (d + 1) : Nat) : Int) -
              A * (x - u * ((c / (d + 1) : Nat) : Int)) =
              ((c : Int) - A * x) -
                ((c / (d + 1) : Nat) : Int) * (((d + 1 : Nat) : Int) - A * u) := by
            ring
          rw [heq]
          exact dvd_sub hc (Dvd.dvd.mul_left hd _)

theorem extgcd_fst (a b : Int) (ha : 0 < a) (hb : 0 < b) :
    (extgcd a b).1 = (Int.gcd a b : Int) := by
  have h1 : a.toNat = a.natAbs := by omega
  have h2 : b.toNat = b.natAbs := by omega
  show ((extgcdAux b.toNat a.toNat b.toNat 1 0).1 : Int) = ((Int.gcd a b : Nat) : Int)
  rw [extgcdAux_fst b.toNat a.toNat b.toNat 1 0 le_rfl, h1, h2]
  rfl

theorem extgcd_bezout (a b : Int) (ha : 0 < a) (hb : 0 < b) :
    b ∣ ((extgcd a b).1 - a * (extgcd a b).2) := by
  show b ∣ (((extgcdAux b.toNat a.toNat b.toNat 1 0).1 : Int) -
    a * (extgcdAux b.toNat a.toNat b.toNat 1 0).2)
  apply extgcdAux_bezout a b b.toNat a.toNat b.toNat 1 0 le_rfl
  · rw [Int.toNat_of_nonneg ha.le]
    simp
  · rw [Int.toNat_of_nonneg hb.le]
    simp

theorem core_facts (aStep bStep : Int) (ha : 0 < aStep) (hb : 0 < bStep) :
    0 < (extgcd aStep bStep).1 ∧
    (extgcd aStep bStep).1 ∣ aStep ∧
    (extgcd aStep bStep).1 ∣ bStep ∧
    0 < coreStep aStep bStep ∧
    aStep ∣ coreStep aStep bStep ∧
    bStep ∣ coreStep aStep bStep ∧
    coreStep aStep bStep = (Int.lcm aStep bStep : Int) := by
  have hg := extgcd_fst aStep bStep ha hb
  have hdva : (extgcd aStep bStep).1 ∣ aStep := by
    rw [hg]; exact Int.gcd_dvd_left
  have hdvb : (extgcd aStep bStep).1 ∣ bStep := by
    rw [hg]; exact Int.gcd_dvd_right
  have hgpos : 0 < (extgcd aStep bStep).1 := by
    rw [hg]
    have hne : aStep.gcd bStep ≠ 0 := by
      intro h
      rw [Int.gcd_eq_zero_iff] at h
      omega
    exact_mod_cast Nat.pos_of_ne_zero hne
  have e1 : (extgcd aStep bStep).1 * (aStep / (extgcd aStep bStep).1) = aStep :=
    Int.mul_ediv_cancel' hdva
  have e2 : (extgcd aStep bStep).1 * (bStep / (extgcd aStep bStep).1) = bStep :=
    Int.mul_ediv_cancel' hdvb
  have hqa : 0 < aStep / (extgcd aStep bStep).1 := by
    rcases le_or_lt (aStep / (extgcd aStep bStep).1) 0 with h | h
    · exfalso
      have hnp : (extgcd aStep bStep).1 * (aStep / (extgcd aStep bStep).1) ≤ 0 :=
        mul_nonpos_of_nonneg_of_nonpos hgpos.le h
      linarith
    · exact h
  have hcspos : 0 < coreStep aStep bStep := mul_pos hqa hb
  have hacs : aStep ∣ coreStep aStep bStep := by
    refine ⟨bStep / (extgcd aStep bStep).1, ?_⟩
    show aStep / (extgcd aStep bStep).1 * bStep = _
    linear_combination (bStep / (extgcd aStep bStep).1) * e1 -
      (aStep / (extgcd aStep bStep).1) * e2
  have hbcs : bStep ∣ coreStep aStep bStep :=
    ⟨aStep / (extgcd aStep bStep).1, mul_comm _ _⟩
  have hgl : (Int.gcd aStep bStep : Int) * (Int.lcm aStep bStep : Int) = aStep * bStep := by
    have hnat := Nat.gcd_mul_lcm aStep.natAbs bStep.natAbs
    have h2 : ((aStep.natAbs.gcd bStep.natAbs : Nat) : Int) *
        ((aStep.natAbs.lcm bStep.natAbs : Nat) : Int) =
        ((aStep.natAbs : Nat) : Int) * ((bStep.natAbs : Nat) : Int) := by
      exact_mod_cast congrArg (fun n : Nat => (n : Int)) hnat
    rw [Int.natAbs_of_nonneg ha.le, Int.natAbs_of_nonneg hb.le] at h2
    rw [Int.lcm_def]
    exact h2
  have hlcm : coreStep aStep bStep = (Int.lcm aStep bStep : Int) := by
    have hgl' : (extgcd aStep bStep).1 * (Int.lcm aStep bStep : Int) = aStep * bStep := by
      rw [hg]; exact hgl
    have hmul : coreStep aStep bStep * (extgcd aStep bStep).1 =
        (Int.lcm aStep bStep : Int) * (extgcd aStep bStep).1 := by
      show aStep / (extgcd aStep bStep).1 * bStep * (extgcd aStep bStep).1 = _
      linear_combination bStep * e1 - hgl'
    exact mul_right_cancel₀ (ne_of_gt hgpos) hmul
  exact ⟨hgpos, hdva, hdvb, hcspos, hacs, hbcs, hlcm⟩

theorem coreStart_facts (aStart aStep bStart bStep : Int)
    (ha : 0 < aStep) (hb : 0 < bStep)
    (hcong : (bStart - aStart) % (extgcd aStep bStep).1 = 0) :
    aStep ∣ (coreStart aStart aStep bStart bStep - aStart) ∧
    bStep ∣ (coreStart aStart aStep bStart bStep - bStart) ∧
    max aStart bStart ≤ coreStart aStart aStep bStart bStep ∧
    coreStart aStart aStep bStart bStep < max aStart bStart + coreStep aStep bStep := by
  obtain ⟨hgpos, hdva, hdvb, hcspos, hacs, hbcs, _⟩ := core_facts aStep bStep ha hb
  have hbez := extgcd_bezout aStep bStep ha hb
  have hdvdba : (extgcd aStep bStep).1 ∣ (bStart - aStart) :=
    Int.dvd_of_emod_eq_zero hcong
  have hq : (extgcd aStep bStep).1 * ((bStart - aStart) / (extgcd aStep bStep).1) =
      bStart - aStart := Int.mul_ediv_cancel' hdvdba
  have hM : aStep * (coreStep aStep bStep / aStep) = coreStep aStep bStep :=
    Int.mul_ediv_cancel' hacs
  have hMpos : 0 < coreStep aStep bStep / aStep := by
    rcases le_or_lt (coreStep aStep bStep / aStep) 0 with h | h
    · exfalso
      have hnp : aStep * (coreStep aStep bStep / aStep) ≤ 0 :=
        mul_nonpos_of_nonneg_of_nonpos ha.le h
      linarith
    · exact h
  set g := (extgcd aStep bStep).1 with hgdef
  set x := (extgcd aStep bStep).2 with hxdef
  set q := (bStart - aStart) / g with hqdef
  set M := coreStep aStep bStep / aStep with hMdef
  set sk := x * q % M with hskdef
  have hc0 : coreStart0 aStart aStep bStart bStep = aStart + aStep * sk := rfl
  have hsk0 : 0 ≤ sk := Int.emod_nonneg _ (ne_of_gt hMpos)
  have hskM : sk < M := Int.emod_lt_of_pos _ hMpos
  have h_as_le : aStart ≤ coreStart0 aStart aStep bStart bStep := by
    rw [hc0]
    have hge : 0 ≤ aStep * sk := mul_nonneg ha.le hsk0
    linarith
  have h_up : coreStart0 aStart aStep bStart bStep < aStart + coreStep aStep bStep := by
    rw [hc0]
    have hlt : aStep * sk < aStep * M := mul_lt_mul_of_pos_left hskM ha
    rw [hM] at hlt
    linarith
  have hdvd_a0 : aStep ∣ (coreStart0 aStart aStep bStart bStep - aStart) :=
    ⟨sk, by rw [hc0]; ring⟩
  have hdvd_b0 : bStep ∣ (coreStart0 aStart aStep bStart bStep - bStart) := by
    have m1 : aStep * x ≡ g [ZMOD bStep] := Int.modEq_iff_dvd.mpr hbez
    have m2 : sk ≡ x * q [ZMOD M] := Int.emod_emod_of_dvd _ dvd_rfl
    have m3 : aStep * sk ≡ aStep * (x * q) [ZMOD aStep * M] := m2.mul_left'
    have m4 : aStep * sk ≡ aStep * (x * q) [ZMOD bStep] :=
      m3.of_dvd (by rw [hM]; exact hbcs)
    have m5 : aStep * (x * q) ≡ g * q [ZMOD bStep] := by
      have := m1.mul_right q
      calc aStep * (x * q) = aStep * x * q := by ring
        _ ≡ g * q [ZMOD bStep] := this
    have m6 : coreStart0 aStart aStep bStart bStep ≡ aStart + g * q [ZMOD bStep] := by
      rw [hc0]
      exact (m4.trans m5).add_left aStart
    have m7 : coreStart0 aStart aStep bStart bStep ≡ bStart [ZMOD bStep] := by
      have : aStart + g * q = bStart := by rw [hq]; ring
      rwa [this] at m6
    have hdd := m7.dvd
    have hrearrange : coreStart0 aStart aStep bStart bStep - bStart =
        -(bStart - coreStart0 aStart aStep bStart bStep) := by ring
    rw [hrearrange]
    exact dvd_neg.mpr hdd
  unfold coreStart
  split_ifs with hlt0
  · set D := bStart - coreStart0 aStart aStep bStart bStep with hD
    set k := (D - 1) / coreStep aStep bStep + 1 with hk
    have hDpos : 0 < D := by rw [hD]; omega
    have hk1 : 1 ≤ k := by
      have : 0 ≤ (D - 1) / coreStep aStep bStep :=
        Int.ediv_nonneg (by omega) hcspos.le
      omega
    have h_ge_b : bStart ≤ coreStart0 aStart aStep bStart bStep + k * coreStep aStep bStep := by
      have hbound := Int.lt_ediv_add_one_mul_self (D - 1) hcspos
      rw [← hk] at hbound
      omega
    have h_lt_b : coreStart0 aStart aStep bStart bStep + k * coreStep aStep bStep <
        bStart + coreStep aStep bStep := by
      have hbound := Int.ediv_mul_le (D - 1) (ne_of_gt hcspos)
      have hkc : k * coreStep aStep bStep =
          (D - 1) / coreStep aStep bStep * coreStep aStep bStep + coreStep aStep bStep := by
        rw [hk]; ring
      omega
    have h_ge_a : aStart ≤ coreStart0 aStart aStep bStart bStep + k * coreStep aStep bStep := by
      have hge : 1 * coreStep aStep bStep ≤ k * coreStep aStep bStep :=
        mul_le_mul_of_nonneg_right hk1 hcspos.le
      linarith
    refine ⟨?_, ?_, ?_, ?_⟩
    · have : coreStart0 aStart aStep bStart bStep + k * coreStep aStep bStep - aStart =
          (coreStart0 aStart aStep bStart bStep - aStart) + k * coreStep aStep bStep := by
        ring
      rw [this]
      exact dvd_add hdvd_a0 (hacs.mul_left k)
    · have : coreStart0 aStart aStep bStart bStep + k * coreStep aStep bStep - bStart =
          (coreStart0 aStart aStep bStart bStep - bStart) + k * coreStep aStep bStep := by
        ring
      rw [this]
      exact dvd_add hdvd_b0 (hbcs.mul_left k)
    · exact max_le h_ge_a h_ge_b
    · have : bStart ≤ max aStart bStart := le_max_right _ _
      linarith
  · push_neg at hlt0
    refine ⟨hdvd_a0, hdvd_b0, max_le h_as_le hlt0, ?_⟩
    have : aStart ≤ max aStart bStart := le_max_left _ _
    linarith

theorem sliceIntersectionCore_char (aStart aStop aStep bStart bStop bStep : Int)
    (ha : 0 < aStep) (hb : 0 < bStep) :
    ((bStart - aStart) % (Int.gcd aStep bStep : Int) ≠ 0 →
      sliceIntersectionCore aStart aStop aStep bStart bStop bStep = none) ∧
    (sliceIntersectionCore aStart aStop aStep bStart bStop bStep = none →
      ∀ i : Int, ¬(memS aStart aStop aStep i ∧ memS bStart bStop bStep i)) ∧
    (∀ c : PySlice, sliceIntersectionCore aStart aStop aStep bStart bStop bStep = some c →
      c.step = (Int.lcm aStep bStep : Int) ∧ c.start < c.stop ∧
      (∀ i : Int, memS c.start c.stop c.step i ↔
        (memS aStart aStop aStep i ∧ memS bStart bStop bStep i))) := by
  have hg := extgcd_fst aStep bStep ha hb
  obtain ⟨hgpos, hdva, hdvb, hcspos, hacs, hbcs, hlcm⟩ := core_facts aStep bStep ha hb
  by_cases hcong : (bStart - aStart) % (extgcd aStep bStep).1 = 0
  · -- congruent case: the result is decided by the range test
    have hresult : sliceIntersectionCore aStart aStop aStep bStart bStop bStep =
        (if coreStart aStart aStep bStart bStep < min aStop bStop then
          some ⟨coreStart aStart aStep bStart bStep, min aStop bStop, coreStep aStep bStep⟩
        else none) := by
      unfold sliceIntersectionCore
      rw [if_neg]
      simp [hcong]
    obtain ⟨hfa, hfb, hfmax, hflt⟩ := coreStart_facts aStart aStep bStart bStep ha hb hcong
    have forward_mem : ∀ i : Int,
        memS (coreStart aStart aStep bStart bStep) (min aStop bStop) (coreStep aStep bStep) i →
        memS aStart aStop aStep i ∧ memS bStart bStop bStep i := by
      intro i ⟨h1, h2, h3⟩
      constructor
      · refine ⟨?_, ?_, ?_⟩
        · have : aStart ≤ max aStart bStart := le_max_left _ _
          linarith [hfmax]
        · have := min_le_left aStop bStop
          linarith
        · have heq : i - aStart = (i - coreStart aStart aStep bStart bStep) +
              (coreStart aStart aStep bStart bStep - aStart) := by ring
          rw [heq]
          exact dvd_add (dvd_trans hacs h3) hfa
      · refine ⟨?_, ?_, ?_⟩
        · have : bStart ≤ max aStart bStart := le_max_right _ _
          linarith [hfmax]
        · have := min_le_right aStop bStop
          linarith
        · have heq : i - bStart = (i - coreStart aStart aStep bStart bStep) +
              (coreStart aStart aStep bStart bStep - bStart) := by ring
          rw [heq]
          exact dvd_add (dvd_trans hbcs h3) hfb
    have backward_mem : ∀ i : Int,
        memS aStart aStop aStep i → memS bStart bStop bStep i →
        memS (coreStart aStart aStep bStart bStep) (min aStop bStop) (coreStep aStep bStep) i := by
      intro i ⟨ha1, ha2, ha3⟩ ⟨hb1, hb2, hb3⟩
      have hdc : coreStep aStep bStep ∣ (i - coreStart aStart aStep bStart bStep) := by
        have hda : aStep ∣ (i - coreStart aStart aStep bStart bStep) := by
          have heq : i - coreStart aStart aStep bStart bStep =
              (i - aStart) - (coreStart aStart aStep bStart bStep - aStart) := by ring
          rw [heq]
          exact dvd_sub ha3 hfa
        have hdb : bStep ∣ (i - coreStart aStart aStep bStart bStep) := by
          have heq : i - coreStart aStart aStep bStart bStep =
              (i - bStart) - (coreStart aStart aStep bStart bStep - bStart) := by ring
          rw [heq]
          exact dvd_sub hb3 hfb
        rw [hlcm]
        exact Int.lcm_dvd hda hdb
      have hile : coreStart aStart aStep bStart bStep ≤ i := by
        by_contra hcon
        push_neg at hcon
        obtain ⟨t, ht⟩ := hdc
        have htneg : t ≤ -1 := by
          rcases le_or_lt t (-1) with h | h
          · exact h
          · exfalso
            have ht0 : 0 ≤ t := by omega
            have : 0 ≤ coreStep aStep bStep * t := mul_nonneg hcspos.le ht0
            omega
        have hmul : coreStep aStep bStep * t ≤ coreStep aStep bStep * (-1) :=
          mul_le_mul_of_nonneg_left htneg hcspos.le
        have himax : max aStart bStart ≤ i := max_le ha1 hb1
        have : i = coreStart aStart aStep bStart bStep + coreStep aStep bStep * t := by
          omega
        linarith [hflt]
      exact ⟨hile, lt_min ha2 hb2, hdc⟩
    refine ⟨?_, ?_, ?_⟩
    · intro h
      exfalso
      rw [hg] at hcong
      exact h hcong
    · intro hnone i ⟨hia, hib⟩
      rw [hresult] at hnone
      split_ifs at hnone with hrange
      have hc := backward_mem i hia hib
      exact absurd (lt_of_le_of_lt hc.1 hc.2.1) hrange
    · intro c hsome
      rw [hresult] at hsome
      split_ifs at hsome with hrange
      · injection hsome with hc
        subst hc
        refine ⟨hlcm.symm ▸ rfl, hrange, ?_⟩
        intro i
        exact ⟨forward_mem i, fun ⟨hia, hib⟩ => backward_mem i hia hib⟩
  · -- incongruent case: the guard returns `none`, and the two sets are disjoint
    have hresult : sliceIntersectionCore aStart aStop aStep bStart bStop bStep = none := by
      unfold sliceIntersectionCore
      rw [if_pos]
      simp [hcong]
    refine ⟨fun _ => hresult, ?_, ?_⟩
    · intro _ i ⟨⟨_, _, hia⟩, ⟨_, _, hib⟩⟩
      apply hcong
      apply Int.emod_eq_zero_of_dvd
      have heq : bStart - aStart = (i - aStart) - (i - bStart) := by ring
      rw [heq]
      exact dvd_sub (dvd_trans hdva hia) (dvd_trans hdvb hib)
    · intro c hsome
      rw [hresult] at hsome
      exact absurd hsome (by simp)

theorem normSlice_def (s : PySlice) (len : Nat) :
    normSlice s len =
      ⟨(pyIndices s len).1, (pyIndices s len).2.1, (pyIndices s len).2.2⟩ := rfl

theorem pyIndices_step (s : PySlice) (len : Nat) :
    (pyIndices s len).2.2 = s.step := rfl

theorem inSlice_iff (s : PySlice) (length : Nat) (i : Int) :
    inSlice s length i = true ↔
      memS (pyIndices s length).1 (pyIndices s length).2.1 (pyIndices s length).2.2 i := by
  simp only [inSlice, memSlice_iff, normSlice_def]

/-- Full characterization of `_slice_intersection` for positive steps: `none`
means the index sets are disjoint, `some c` describes exactly the intersection,
with step `lcm(a.step, b.step)`, and incongruent normalized starts modulo
`gcd(a.step, b.step)` force `none`. -/
theorem sliceIntersection_char (a b : PySlice) (length : Nat)
    (ha : 0 < a.step) (hb : 0 < b.step) :
    (((pyIndices b length).1 - (pyIndices a length).1) % (Int.gcd a.step b.step : Int) ≠ 0 →
      sliceIntersection a b length = none) ∧
    (sliceIntersection a b length = none →
      ∀ i : Int, ¬(inSlice a length i = true ∧ inSlice b length i = true)) ∧
    (∀ c : PySlice, sliceIntersection a b length = some c →
      c.step = (Int.lcm a.step b.step : Int) ∧ c.start < c.stop ∧
      (∀ i : Int, memSlice c i = true ↔
        (inSlice a length i = true ∧ inSlice b length i = true))) := by
  have hsa : (pyIndices a length).2.2 = a.step := rfl
  have hsb : (pyIndices b length).2.2 = b.step := rfl
  have hcore := sliceIntersectionCore_char (pyIndices a length).1 (pyIndices a length).2.1
    (pyIndices a length).2.2 (pyIndices b length).1 (pyIndices b length).2.1
    (pyIndices b length).2.2 (by rw [hsa]; exact ha) (by rw [hsb]; exact hb)
  rw [hsa, hsb] at hcore
  have heq : sliceIntersection a b length =
      sliceIntersectionCore (pyIndices a length).1 (pyIndices a length).2.1 a.step
        (pyIndices b length).1 (pyIndices b length).2.1 b.step := rfl
  refine ⟨?_, ?_, ?_⟩
  · intro h
    rw [heq]
    exact hcore.1 h
  · intro h i hmem
    rw [heq] at h
    refine hcore.2.1 h i ⟨?_, ?_⟩
    · have := (inSlice_iff a length i).mp hmem.1
      rwa [hsa] at this
    · have := (inSlice_iff b length i).mp hmem.2
      rwa [hsb] at this
  · intro c hc
    rw [heq] at hc
    obtain ⟨h1, h2, h3⟩ := hcore.2.2 c hc
    refine ⟨h1, h2, fun i => ?_⟩
    rw [memSlice_iff, h3 i, inSlice_iff a length i, inSlice_iff b length i, hsa, hsb]

theorem sliceIntersection_some_start (a b : PySlice) (length : Nat)
    (ha : 0 < a.step) (hb : 0 < b.step) (c : PySlice)
    (h : sliceIntersection a b length = some c) :
    inSlice a length c.start = true ∧ inSlice b length c.start = true := by
  obtain ⟨-, hcs, hmem⟩ := (sliceIntersection_char a b length ha hb).2.2 c h
  have hself : memSlice c c.start = true := by
    rw [memSlice_iff]
    exact ⟨le_rfl, hcs, by simp⟩
  exact (hmem c.start).mp hself

theorem sliceIntersection_none_symm (a b : PySlice) (length : Nat)
    (ha : 0 < a.step) (hb : 0 < b.step)
    (h : sliceIntersection a b length = none) : sliceIntersection b a length = none := by
  rcases hx : sliceIntersection b a length with _ | c
  · rfl
  · exfalso
    obtain ⟨hbm, ham⟩ := sliceIntersection_some_start b a length hb ha c hx
    exact (sliceIntersection_char a b length ha hb).2.1 h c.start ⟨ham, hbm⟩

theorem sliceIntersection_mem_symm (a b : PySlice) (length : Nat)
    (ha : 0 < a.step) (hb : 0 < b.step) (c1 c2 : PySlice)
    (h1 : sliceIntersection a b length = some c1)
    (h2 : sliceIntersection b a length = some c2) (i : Int) :
    memSlice c1 i = memSlice c2 i := by
  obtain ⟨-, -, hm1⟩ := (sliceIntersection_char a b length ha hb).2.2 c1 h1
  obtain ⟨-, -, hm2⟩ := (sliceIntersection_char b a length hb ha).2.2 c2 h2
  have hiff : memSlice c1 i = true ↔ memSlice c2 i = true := by
    rw [hm1, hm2]
    tauto
  cases hc1 : memSlice c1 i <;> cases hc2 : memSlice c2 i <;> simp_all

theorem indexIntersection_cons (a b : PySlice) (as bs : Region) (L : Nat) (Ls : List Nat) :
    indexIntersection (a :: as) (b :: bs) (L :: Ls) =
      (match sliceIntersection a b L with
       | none => none
       | some s => (indexIntersection as bs Ls).map (s :: ·)) := by
  rcases h : sliceIntersection a b L with _ | s <;>
    · show optionsAll (sliceIntersection a b L :: zipWith3 sliceIntersection as bs Ls) = _
      rw [h]
      rfl

theorem memRegion_cons (s : PySlice) (r : Region) (x : Int) (c : Coord) :
    memRegion (s :: r) (x :: c) = (memSlice s x && memRegion r c) := by
  simp [memRegion, Bool.and_left_comm, Bool.and_comm, Bool.and_assoc]

theorem indexIntersection_symm_aux (shape : List Nat) :
    ∀ (aIdx bIdx : Region), aIdx.length = shape.length → bIdx.length = shape.length →
    (∀ s ∈ aIdx, 0 < s.step) → (∀ s ∈ bIdx, 0 < s.step) →
    ((indexIntersection aIdx bIdx shape = none ↔ indexIntersection bIdx aIdx shape = none) ∧
     (∀ r1 r2 : Region, indexIntersection aIdx bIdx shape = some r1 →
        indexIntersection bIdx aIdx shape = some r2 →
        ∀ c : Coord, memRegion r1 c = memRegion r2 c)) := by
  induction shape with
  | nil =>
      intro aIdx bIdx hla hlb _ _
      rcases aIdx with _ | ⟨a, as⟩
      case cons => simp at hla
      rcases bIdx with _ | ⟨b, bs⟩
      case cons => simp at hlb
      constructor
      · simp [indexIntersection, zipWith3, optionsAll]
      · intro r1 r2 h1 h2 c
        simp only [indexIntersection, zipWith3, optionsAll] at h1 h2
        injection h1 with h1
        injection h2 with h2
        subst h1
        subst h2
        rfl
  | cons L Ls ih =>
      intro aIdx bIdx hla hlb hsa hsb
      match aIdx, bIdx with
      | a :: as, b :: bs =>
        have hla' : as.length = Ls.length := by simpa using hla
        have hlb' : bs.length = Ls.length := by simpa using hlb
        have ha : 0 < a.step := hsa a (by simp)
        have hb : 0 < b.step := hsb b (by simp)
        have hsa' : ∀ s ∈ as, 0 < s.step := fun s hs => hsa s (by simp [hs])
        have hsb' : ∀ s ∈ bs, 0 < s.step := fun s hs => hsb s (by simp [hs])
        obtain ⟨ihnone, ihmem⟩ := ih as bs hla' hlb' hsa' hsb'
        rw [indexIntersection_cons, indexIntersection_cons]
        rcases hab : sliceIntersection a b L with _ | s1
        · have hba : sliceIntersection b a L = none :=
            sliceIntersection_none_symm a b L ha hb hab
          rw [hba]
          exact ⟨Iff.rfl, fun r1 r2 h1 => by simp at h1⟩
        · rcases hba : sliceIntersection b a L with _ | s2
          · have := sliceIntersection_none_symm b a L hb ha hba
            rw [this] at hab
            exact absurd hab (by simp)
          · constructor
            · simp only [Option.map_eq_none']
              exact ihnone
            · intro r1 r2 h1 h2 c
              simp only [Option.map_eq_some'] at h1 h2
              obtain ⟨t1, ht1, hr1⟩ := h1
              obtain ⟨t2, ht2, hr2⟩ := h2
              subst hr1
              subst hr2
              rcases c with _ | ⟨x, c⟩
              · simp [memRegion]
              · rw [memRegion_cons, memRegion_cons,
                  sliceIntersection_mem_symm a b L ha hb s1 s2 hab hba x,
                  ihmem t1 t2 ht1 ht2 c]

/-- C5: for positive-step slices, `_slice_intersection(a, b, length)` returns
exactly the set of indices selected by both slices, as a strided slice whose
step is `lcm(a.step, b.step)`, and returns `None` whenever the normalized
start offsets are incongruent modulo `gcd(a.step, b.step)`. -/
theorem slice_intersection_correct (a b : PySlice) (length : Nat)
    (ha : 0 < a.step) (hb : 0 < b.step) :
    (((normSlice b length).start - (normSlice a length).start) %
        (Int.gcd a.step b.step : Int) ≠ 0 →
      sliceIntersection a b length = none) ∧
    (sliceIntersection a b length = none →
      ∀ i : Int, ¬(inSlice a length i = true ∧ inSlice b length i = true)) ∧
    (∀ c : PySlice, sliceIntersection a b length = some c →
      c.step = (Int.lcm a.step b.step : Int) ∧
      (∀ i : Int, memSlice c i = true ↔
        (inSlice a length i = true ∧ inSlice b length i = true))) := by
  obtain ⟨h1, h2, h3⟩ := sliceIntersection_char a b length ha hb
  exact ⟨h1, h2, fun c hc => ⟨(h3 c hc).1, (h3 c hc).2.2⟩⟩

theorem slice_intersection_correct_witness :
    (0 : Int) < (⟨0, 10, 2⟩ : PySlice).step ∧ (0 : Int) < (⟨1, 10, 3⟩ : PySlice).step ∧
    ((((normSlice ⟨1, 10, 3⟩ 10).start - (normSlice ⟨0, 10, 2⟩ 10).start) %
        (Int.gcd (⟨0, 10, 2⟩ : PySlice).step (⟨1, 10, 3⟩ : PySlice).step : Int) ≠ 0 →
      sliceIntersection ⟨0, 10, 2⟩ ⟨1, 10, 3⟩ 10 = none) ∧
    (sliceIntersection ⟨0, 10, 2⟩ ⟨1, 10, 3⟩ 10 = none →
      ∀ i : Int, ¬(inSlice ⟨0, 10, 2⟩ 10 i = true ∧ inSlice ⟨1, 10, 3⟩ 10 i = true)) ∧
    (∀ c : PySlice, sliceIntersection ⟨0, 10, 2⟩ ⟨1, 10, 3⟩ 10 = some c →
      c.step = (Int.lcm (⟨0, 10, 2⟩ : PySlice).step (⟨1, 10, 3⟩ : PySlice).step : Int) ∧
      (∀ i : Int, memSlice c i = true ↔
        (inSlice ⟨0, 10, 2⟩ 10 i = true ∧ inSlice ⟨1, 10, 3⟩ 10 i = true)))) :=
  ⟨by decide, by decide,
    slice_intersection_correct ⟨0, 10, 2⟩ ⟨1, 10, 3⟩ 10 (by decide) (by decide)⟩

/-- C7: `_index_intersection` is symmetric in its two index arguments — the
same emptiness, and, when non-empty, the two results select the same
coordinates. -/
theorem index_intersection_symm (aIdx bIdx : Region) (shape : List Nat)
    (hla : aIdx.length = shape.length) (hlb : bIdx.length = shape.length)
    (hsa : ∀ s ∈ aIdx, 0 < s.step) (hsb : ∀ s ∈ bIdx, 0 < s.step) :
    (indexIntersection aIdx bIdx shape = none ↔ indexIntersection bIdx aIdx shape = none) ∧
    (∀ r1 r2 : Region, indexIntersection aIdx bIdx shape = some r1 →
      indexIntersection bIdx aIdx shape = some r2 →
      ∀ c : Coord, memRegion r1 c = memRegion r2 c) :=
  indexIntersection_symm_aux shape aIdx bIdx hla hlb hsa hsb

theorem index_intersection_symm_witness :
    ([⟨0, 4, 1⟩, ⟨1, 7, 2⟩] : Region).length = ([4, 8] : List Nat).length ∧
    ([⟨2, 4, 1⟩, ⟨0, 8, 3⟩] : Region).length = ([4, 8] : List Nat).length ∧
    (∀ s ∈ ([⟨0, 4, 1⟩, ⟨1, 7, 2⟩] : Region), 0 < s.step) ∧
    (∀ s ∈ ([⟨2, 4, 1⟩, ⟨0, 8, 3⟩] : Region), 0 < s.step) ∧
    ((indexIntersection [⟨0, 4, 1⟩, ⟨1, 7, 2⟩] [⟨2, 4, 1⟩, ⟨0, 8, 3⟩] [4, 8] = none ↔
        indexIntersection [⟨2, 4, 1⟩, ⟨0, 8, 3⟩] [⟨0, 4, 1⟩, ⟨1, 7, 2⟩] [4, 8] = none) ∧
      (∀ r1 r2 : Region,
        indexIntersection [⟨0, 4, 1⟩, ⟨1, 7, 2⟩] [⟨2, 4, 1⟩, ⟨0, 8, 3⟩] [4, 8] = some r1 →
        indexIntersection [⟨2, 4, 1⟩, ⟨0, 8, 3⟩] [⟨0, 4, 1⟩, ⟨1, 7, 2⟩] [4, 8] = some r2 →
        ∀ c : Coord, memRegion r1 c = memRegion r2 c)) :=
  ⟨by decide, by decide, by decide, by decide,
    index_intersection_symm [⟨0, 4, 1⟩, ⟨1, 7, 2⟩] [⟨2, 4, 1⟩, ⟨0, 8, 3⟩] [4, 8]
      (by decide) (by decide) (by decide) (by decide)⟩

/-- C8 (code versus claim and versus the function's own docstring): the
validation accepts a negative integer index without range-checking it (only
`idx >= shape[i]` raises) and returns the non-normalized, negative slice
`slice(-5, -4)`; it also accepts `slice(3, 1)` whose indexed range is empty
(only `start == stop` is caught, not `start > stop`). -/
theorem convert_chunk_idx_to_slices_bug :
    convertChunkIdxToSlices [3] [IdxItem.intIdx (-5)] = .ok [⟨-5, -4, 1⟩] ∧
    convertChunkIdxToSlices [5] [IdxItem.slcIdx ⟨some 3, some 1, none⟩] = .ok [⟨3, 1, 1⟩] :=
  ⟨rfl, rfl⟩

/-- C9: `__cupy_override_reduction_kernel__` fails before any device dispatch
when `out` is given or `keepdims` is set, and which error it raises depends
only on those two arguments. -/
theorem execute_reduction_rejects_out_keepdims {α : Type} [Inhabited α]
    (ops : DtypeOps α) (self : DArray α) (kernelName : String) (axis : Nat)
    (out : Option Unit) (keepdims : Bool)
    (h : out.isSome = true ∨ keepdims = true) :
    cupyOverrideReductionKernel ops self kernelName axis out keepdims =
      .error (if out.isSome then "Argument out is not supported"
        else "keepdims is not supported") := by
  unfold cupyOverrideReductionKernel
  rcases h with h | h
  · rw [if_pos h, if_pos h]
  · by_cases ho : out.isSome = true
    · rw [if_pos ho, if_pos ho]
    · rw [if_neg ho, if_neg ho, if_pos h]

theorem execute_reduction_rejects_out_keepdims_witness :
    ((some () : Option Unit).isSome = true ∨ false = true) ∧
    cupyOverrideReductionKernel intOps (⟨[], [], ModeName.replica⟩ : DArray Int)
      "cupy_sum" 0 (some ()) false =
      .error (if (some () : Option Unit).isSome then "Argument out is not supported"
        else "keepdims is not supported") :=
  ⟨Or.inl rfl,
    execute_reduction_rejects_out_keepdims intOps ⟨[], [], ModeName.replica⟩
      "cupy_sum" 0 (some ()) false (Or.inl rfl)⟩

/-- C3: `_apply_and_update_chunks` is a no-op on an empty index intersection;
otherwise it leaves `dst`'s buffer untouched and enqueues the transferred
intersected sub-region (the source values captured before any reset) as one
deferred update on `dst`, and, exactly for the non-idempotent modes, overwrites
the copied region of the source buffer with the mode's identity, leaving the
rest of the source buffer unchanged — so that region contributes exactly once
to any later reduction. -/
theorem apply_and_update_chunks_spec {α : Type} (ops : DtypeOps α) (opMode : ModeName)
    (shape : List Nat) (src dst : Chunk α) :
    (indexIntersection src.index dst.index shape = none →
      applyAndUpdateChunks ops opMode shape src dst = (src, dst)) ∧
    (∀ inter : Region, indexIntersection src.index dst.index shape = some inter →
      (applyAndUpdateChunks ops opMode shape src dst).2.data = dst.data ∧
      (applyAndUpdateChunks ops opMode shape src dst).2.index = dst.index ∧
      (applyAndUpdateChunks ops opMode shape src dst).2.updates =
        dst.updates ++ [(⟨src.data⟩, inter)] ∧
      (applyAndUpdateChunks ops opMode shape src dst).1.index = src.index ∧
      (applyAndUpdateChunks ops opMode shape src dst).1.updates = src.updates ∧
      (modeIdempotent opMode = true →
        (applyAndUpdateChunks ops opMode shape src dst).1 = src) ∧
      (modeIdempotent opMode = false →
        ∀ c : Coord, (applyAndUpdateChunks ops opMode shape src dst).1.data c =
          if inRegion shape inter c then identityOf ops opMode else src.data c)) := by
  have hsome : ∀ inter : Region, indexIntersection src.index dst.index shape = some inter →
      applyAndUpdateChunks ops opMode shape src dst =
        ((if modeIdempotent opMode = true then src
          else ⟨fun c => if inRegion shape inter c then identityOf ops opMode else src.data c,
            src.index, src.updates⟩),
         (⟨dst.data, dst.index, dst.updates ++ [(⟨src.data⟩, inter)]⟩ : Chunk α)) := by
    intro inter h
    unfold applyAndUpdateChunks
    rw [h]
    rfl
  constructor
  · intro h
    unfold applyAndUpdateChunks
    rw [h]
  · intro inter h
    rw [hsome inter h]
    by_cases hid : modeIdempotent opMode = true
    · rw [if_pos hid]
      refine ⟨rfl, rfl, rfl, rfl, rfl, fun _ => rfl, fun hf => ?_⟩
      rw [hid] at hf
      exact absurd hf (by simp)
    · rw [if_neg hid]
      exact ⟨rfl, rfl, rfl, rfl, rfl, fun ht => absurd ht hid, fun _ c => rfl⟩

theorem apply_and_update_chunks_spec_witness :
    indexIntersection [⟨0, 4, 1⟩] [⟨2, 4, 1⟩] [4] = some [⟨2, 4, 1⟩] ∧
    ((applyAndUpdateChunks intOps ModeName.sum [4]
        ⟨fun _ => 5, [⟨0, 4, 1⟩], []⟩ ⟨fun _ => 6, [⟨2, 4, 1⟩], []⟩).2.data =
      (⟨fun _ => 6, [⟨2, 4, 1⟩], []⟩ : Chunk Int).data ∧
    (applyAndUpdateChunks intOps ModeName.sum [4]
        ⟨fun _ => 5, [⟨0, 4, 1⟩], []⟩ ⟨fun _ => 6, [⟨2, 4, 1⟩], []⟩).2.index =
      (⟨fun _ => 6, [⟨2, 4, 1⟩], []⟩ : Chunk Int).index ∧
    (applyAndUpdateChunks intOps ModeName.sum [4]
        ⟨fun _ => 5, [⟨0, 4, 1⟩], []⟩ ⟨fun _ => 6, [⟨2, 4, 1⟩], []⟩).2.updates =
      (⟨fun _ => 6, [⟨2, 4, 1⟩], []⟩ : Chunk Int).updates ++
        [(⟨(⟨fun _ => 5, [⟨0, 4, 1⟩], []⟩ : Chunk Int).data⟩, [⟨2, 4, 1⟩])] ∧
    (applyAndUpdateChunks intOps ModeName.sum [4]
        ⟨fun _ => 5, [⟨0, 4, 1⟩], []⟩ ⟨fun _ => 6, [⟨2, 4, 1⟩], []⟩).1.index =
      (⟨fun _ => 5, [⟨0, 4, 1⟩], []⟩ : Chunk Int).index ∧
    (applyAndUpdateChunks intOps ModeName.sum [4]
        ⟨fun _ => 5, [⟨0, 4, 1⟩], []⟩ ⟨fun _ => 6, [⟨2, 4, 1⟩], []⟩).1.updates =
      (⟨fun _ => 5, [⟨0, 4, 1⟩], []⟩ : Chunk Int).updates ∧
    (modeIdempotent ModeName.sum = true →
      (applyAndUpdateChunks intOps ModeName.sum [4]
        ⟨fun _ => 5, [⟨0, 4, 1⟩], []⟩ ⟨fun _ => 6, [⟨2, 4, 1⟩], []⟩).1 =
        ⟨fun _ => 5, [⟨0, 4, 1⟩], []⟩) ∧
    (modeIdempotent ModeName.sum = false →
      ∀ c : Coord, (applyAndUpdateChunks intOps ModeName.sum [4]
        ⟨fun _ => 5, [⟨0, 4, 1⟩], []⟩ ⟨fun _ => 6, [⟨2, 4, 1⟩], []⟩).1.data c =
        if inRegion [4] [⟨2, 4, 1⟩] c then identityOf intOps ModeName.sum
        else (⟨fun _ => 5, [⟨0, 4, 1⟩], []⟩ : Chunk Int).data c)) :=
  ⟨rfl, (apply_and_update_chunks_spec intOps ModeName.sum [4]
    ⟨fun _ => 5, [⟨0, 4, 1⟩], []⟩ ⟨fun _ => 6, [⟨2, 4, 1⟩], []⟩).2 [⟨2, 4, 1⟩] rfl⟩

theorem extractChunks_replica_snd {α : Type} (ops : DtypeOps α) (shape : List Nat)
    (rs : List Region) : ∀ A : Coord → α,
    (extractChunks ops ModeName.replica shape A rs).2 = A := by
  induction rs with
  | nil => intro A; rfl
  | cons r rs ih =>
      intro A
      show (extractChunks ops ModeName.replica shape
        (if isOpMode ModeName.replica && !modeIdempotent ModeName.replica then
          fun c => if inRegion shape r c then identityOf ops ModeName.replica else A c
        else A) rs).2 = A
      rw [show (isOpMode ModeName.replica && !modeIdempotent ModeName.replica) = false from rfl]
      simp only [Bool.false_eq_true, if_neg, ite_false]
      exact ih A

theorem shardLoop_replica_snd {α : Type} (ops : DtypeOps α) (shape : List Nat)
    (nim : List (Nat × List Region)) : ∀ A : Coord → α,
    (shardLoop ops ModeName.replica shape A nim).2 = A := by
  induction nim with
  | nil => intro A; rfl
  | cons p rest ih =>
      intro A
      show (shardLoop ops ModeName.replica shape
        (extractChunks ops ModeName.replica shape A p.2).2 rest).2 = A
      rw [extractChunks_replica_snd ops shape p.2 A]
      exact ih A

/-- C10: `distributed_array` never mutates the caller's argument: in a
non-replica mode the identity resets hit a private copy made before sharding
(`array.copy()` — or the fresh buffer `numpy.array(array)` builds for a
non-`ndarray` argument), and in replica mode no reset is performed at all, so
the buffer the caller observes after the call always holds the original
values. -/
theorem distributed_array_preserves_input {α : Type} (ops : DtypeOps α)
    (isNdarray : Bool) (hostArray : Coord → α) (shape : List Nat)
    (indexMap : List (Nat × List (List IdxItem))) (mode : ModeName)
    (arr : DArray α) (after : Coord → α)
    (h : distributedArray ops isNdarray hostArray shape indexMap mode = .ok (arr, after)) :
    ∀ c : Coord, after c = hostArray c := by
  unfold distributedArray at h
  cases him : convertIndexMap shape indexMap with
  | error e =>
      rw [him] at h
      exact absurd h (by simp [Bind.bind, Except.bind])
  | ok nim =>
      rw [him] at h
      simp only [Bind.bind, Except.bind, pure, Except.pure] at h
      injection h with h
      have hafter : after =
          (if (!isNdarray || mode != ModeName.replica) = true then hostArray
           else (shardLoop ops mode shape hostArray nim).2) := by
        have := congrArg Prod.snd h
        exact this.symm
      by_cases hfresh : (!isNdarray || mode != ModeName.replica) = true
      · rw [if_pos hfresh] at hafter
        intro c
        rw [hafter]
      · rw [if_neg hfresh] at hafter
        have hmode : mode = ModeName.replica := by
          rcases mode <;> simp_all
        subst hmode
        rw [hafter, shardLoop_replica_snd ops shape nim hostArray]
        intro c
        rfl

theorem distributed_array_preserves_input_witness :
    (distributedArray intOps true (fun _ => (7 : Int)) [2]
      [(0, [[IdxItem.slcIdx ⟨none, none, none⟩]])] ModeName.sum =
      .ok (⟨[2], [(0, [⟨fun _ => (7 : Int), [⟨0, 2, 1⟩], []⟩])], ModeName.sum⟩,
        fun _ => (7 : Int))) ∧
    ∀ c : Coord, (fun _ => (7 : Int)) c = (fun _ => (7 : Int)) c :=
  ⟨rfl, distributed_array_preserves_input intOps true (fun _ => (7 : Int)) [2]
    [(0, [[IdxItem.slcIdx ⟨none, none, none⟩]])] ModeName.sum
    ⟨[2], [(0, [⟨fun _ => (7 : Int), [⟨0, 2, 1⟩], []⟩])], ModeName.sum⟩
    (fun _ => (7 : Int)) rfl⟩

theorem isOpMode_replica : isOpMode ModeName.replica = false := rfl

theorem applyUpdates_nil (ops : DtypeOps α) (mode : ModeName) (shape : List Nat)
    (c : Chunk α) (h : c.updates = []) : applyUpdates ops mode shape c = c := by
  rcases c with ⟨d, i, u⟩
  have hu : u = [] := h
  subst hu
  rfl

theorem listMapId {l : List β} {f : β → β} (h : ∀ x ∈ l, f x = x) : l.map f = l := by
  induction l with
  | nil => rfl
  | cons x xs ih =>
      rw [List.map_cons, h x (by simp), ih (fun y hy => h y (by simp [hy]))]

theorem flattenChunks_cons (p : Nat × List (Chunk α)) (rest : ChunksMap α) :
    flattenChunks (p :: rest) = p.2 ++ flattenChunks rest := rfl

theorem flattenChunks_map (f : Chunk α → Chunk α) (m : ChunksMap α) :
    flattenChunks (m.map (fun p => (p.1, p.2.map f))) = (flattenChunks m).map f := by
  induction m with
  | nil => rfl
  | cons p rest ih =>
      rw [List.map_cons, flattenChunks_cons, flattenChunks_cons, List.map_append, ih]

theorem flattenChunks_mapRegions (g : Region → Chunk α) (nim : List (Nat × List Region)) :
    flattenChunks (nim.map (fun p => (p.1, p.2.map g))) = (flatRegions nim).map g := by
  induction nim with
  | nil => rfl
  | cons p rest ih =>
      show p.2.map g ++ flattenChunks (rest.map _) = ((p.2 :: rest.map Prod.snd).flatten).map g
      rw [ih, List.flatten_cons, List.map_append]
      rfl

theorem replicaFold (ops : DtypeOps α) (shape : List Nat) (A : Coord → α) (c : Coord) :
    ∀ (chunks : List (Chunk α)) (np : Coord → Option α),
      (∀ ch ∈ chunks, inRegion shape ch.index c = true → ch.data c = A c) →
      chunks.foldl (asnumpyStep ops ModeName.replica shape) np c =
        (if chunks.any (fun ch => inRegion shape ch.index c) then some (A c) else np c) := by
  intro chunks
  induction chunks with
  | nil => intro np _; simp
  | cons ch rest ih =>
      intro np h
      have hch := h ch (by simp)
      have hrest : ∀ x ∈ rest, inRegion shape x.index c = true → x.data c = A c :=
        fun x hx => h x (by simp [hx])
      rw [List.foldl_cons, ih _ hrest]
      cases hcb : inRegion shape ch.index c with
      | false => simp [List.any_cons, hcb, asnumpyStep]
      | true =>
          cases hr : rest.any (fun x => inRegion shape x.index c) with
          | false =>
              simp [List.any_cons, hcb, hr, asnumpyStep, isOpMode_replica, hch hcb]
          | true => simp [List.any_cons, hcb, hr]

theorem asnumpyModel_replica_eq (ops : DtypeOps α) (shape : List Nat) (m : ChunksMap α)
    (A : Coord → α) (c : Coord)
    (hch : ∀ ch ∈ flattenChunks m, ch.updates = [] ∧
      (inRegion shape ch.index c = true → ch.data c = A c))
    (hcov : ∃ ch ∈ flattenChunks m, inRegion shape ch.index c = true) :
    asnumpyModel ops ⟨shape, m, ModeName.replica⟩ c = some (A c) := by
  unfold asnumpyModel
  show (flattenChunks (drainChunksMap ops ModeName.replica shape m)).foldl
      (asnumpyStep ops ModeName.replica shape)
      (if isOpMode ModeName.replica then fun _ => some (identityOf ops ModeName.replica)
       else fun _ => none) c = some (A c)
  rw [isOpMode_replica]
  have hdrain : flattenChunks (drainChunksMap ops ModeName.replica shape m) =
      flattenChunks m := by
    unfold drainChunksMap
    rw [flattenChunks_map]
    exact listMapId (fun ch hc => applyUpdates_nil ops _ shape ch (hch ch hc).1)
  rw [if_neg (by simp), hdrain,
    replicaFold ops shape A c (flattenChunks m) _ (fun ch hc => (hch ch hc).2)]
  obtain ⟨ch, hmem, hin⟩ := hcov
  rw [if_pos]
  rw [List.any_eq_true]
  exact ⟨ch, hmem, hin⟩

theorem extractChunks_replica_chunks (ops : DtypeOps α) (shape : List Nat)
    (rs : List Region) : ∀ A : Coord → α,
    (extractChunks ops ModeName.replica shape A rs).1 =
      rs.map (fun r => (⟨A, r, []⟩ : Chunk α)) := by
  induction rs with
  | nil => intro A; rfl
  | cons r rest ih =>
      intro A
      show (⟨A, r, []⟩ : Chunk α) :: (extractChunks ops ModeName.replica shape
        (if isOpMode ModeName.replica && !modeIdempotent ModeName.replica then
          fun c => if inRegion shape r c then identityOf ops ModeName.replica else A c
        else A) rest).1 = _
      rw [show (isOpMode ModeName.replica && !modeIdempotent ModeName.replica) = false from rfl]
      simp only [Bool.false_eq_true, if_neg, ite_false]
      rw [ih A]
      rfl

theorem shardLoop_replica_chunks (ops : DtypeOps α) (shape : List Nat)
    (nim : List (Nat × List Region)) : ∀ A : Coord → α,
    (shardLoop ops ModeName.replica shape A nim).1 =
      nim.map (fun p => (p.1, p.2.map (fun r => (⟨A, r, []⟩ : Chunk α)))) := by
  induction nim with
  | nil => intro A; rfl
  | cons p rest ih =>
      intro A
      show (p.1, (extractChunks ops ModeName.replica shape A p.2).1) ::
        (shardLoop ops ModeName.replica shape
          (extractChunks ops ModeName.replica shape A p.2).2 rest).1 = _
      rw [extractChunks_replica_chunks ops shape p.2 A,
        extractChunks_replica_snd ops shape p.2 A, ih A]
      rfl

theorem inShape_cons (n : Nat) (rest : List Nat) (x : Int) (c : Coord) :
    inShape (n :: rest) (x :: c) = ((0 ≤ x && x < (n : Int)) && inShape rest c) := by
  simp [inShape, Bool.and_left_comm, Bool.and_comm, Bool.and_assoc]

theorem mem_axisCoords (n : Nat) (x : Int) (h0 : 0 ≤ x) (hn : x < (n : Int)) :
    x ∈ axisCoords n := by
  induction n with
  | zero => exact absurd hn (by omega)
  | succ n ih =>
      unfold axisCoords
      rw [List.mem_append]
      by_cases hx : x < (n : Int)
      · exact Or.inl (ih hx)
      · right
        have hxe : x = (n : Int) := by omega
        simp [hxe]

theorem mem_allCoords : ∀ (shape : List Nat) (c : Coord),
    inShape shape c = true → c ∈ allCoords shape := by
  intro shape
  induction shape with
  | nil =>
      intro c hc
      rcases c with _ | ⟨x, c⟩
      · simp [allCoords]
      · simp [inShape] at hc
  | cons n rest ih =>
      intro c hc
      rcases c with _ | ⟨x, c⟩
      · simp [inShape] at hc
      · rw [inShape_cons] at hc
        simp only [Bool.and_eq_true, decide_eq_true_eq] at hc
        obtain ⟨⟨hx0, hxn⟩, hrest⟩ := hc
        have hx : ((x.toNat : Nat) : Int) = x := Int.toNat_of_nonneg hx0
        show x :: c ∈ allCoords (n :: rest)
        unfold allCoords
        rw [List.mem_flatten]
        have hxmem : x ∈ axisCoords n := mem_axisCoords n x hx0 hxn
        exact ⟨(allCoords rest).map (fun c' => x :: c'), List.mem_map.mpr ⟨x, hxmem, rfl⟩,
          List.mem_map.mpr ⟨c, ih c hrest, rfl⟩⟩

theorem coversB_covers (shape : List Nat) (nim : List (Nat × List Region))
    (h : coversB shape nim = true) :
    ∀ c : Coord, inShape shape c = true →
      ∃ r ∈ flatRegions nim, inRegion shape r c = true := by
  intro c hc
  have hm := mem_allCoords shape c hc
  have hany := List.all_eq_true.mp h c hm
  rw [List.any_eq_true] at hany
  exact hany

/-- C1: building a replica-mode distributed array from a host array `A` with an
index map whose (converted) regions cover the shape without gaps, and then
materializing it with `asnumpy`, returns exactly `A` on every coordinate of the
shape. -/
theorem distributed_array_replica_roundtrip {α : Type} (ops : DtypeOps α)
    (isNdarray : Bool) (hostArray : Coord → α) (shape : List Nat)
    (indexMap : List (Nat × List (List IdxItem))) (nim : List (Nat × List Region))
    (arr : DArray α) (after : Coord → α)
    (hconv : convertIndexMap shape indexMap = .ok nim)
    (hok : distributedArray ops isNdarray hostArray shape indexMap ModeName.replica =
      .ok (arr, after))
    (hcov : ∀ c : Coord, inShape shape c = true →
      ∃ r ∈ flatRegions nim, inRegion shape r c = true) :
    ∀ c : Coord, inShape shape c = true →
      asnumpyModel ops arr c = some (hostArray c) := by
  intro c hc
  unfold distributedArray at hok
  rw [hconv] at hok
  simp only [Bind.bind, Except.bind, pure, Except.pure] at hok
  injection hok with hok
  have harr : arr = ⟨shape, (shardLoop ops ModeName.replica shape hostArray nim).1,
      ModeName.replica⟩ := by
    have := congrArg Prod.fst hok
    exact this.symm
  subst harr
  rw [shardLoop_replica_chunks ops shape nim hostArray]
  apply asnumpyModel_replica_eq ops shape _ hostArray c
  · intro ch hch
    rw [flattenChunks_mapRegions] at hch
    rw [List.mem_map] at hch
    obtain ⟨r, _, hr⟩ := hch
    subst hr
    exact ⟨rfl, fun _ => rfl⟩
  · obtain ⟨r, hmem, hin⟩ := hcov c hc
    refine ⟨⟨hostArray, r, []⟩, ?_, hin⟩
    rw [flattenChunks_mapRegions, List.mem_map]
    exact ⟨r, hmem, rfl⟩

theorem distributed_array_replica_roundtrip_witness :
    (convertIndexMap [2] [(0, [[IdxItem.slcIdx ⟨none, none, none⟩]])] =
      .ok [(0, [[⟨0, 2, 1⟩]])]) ∧
    (distributedArray intOps true (fun c => c.headD 0 * 3 + 1) [2]
      [(0, [[IdxItem.slcIdx ⟨none, none, none⟩]])] ModeName.replica =
      .ok (⟨[2], [(0, [⟨fun c => c.headD 0 * 3 + 1, [⟨0, 2, 1⟩], []⟩])], ModeName.replica⟩,
        fun c => c.headD 0 * 3 + 1)) ∧
    (∀ c : Coord, inShape [2] c = true →
      ∃ r ∈ flatRegions [(0, [[⟨0, 2, 1⟩]])], inRegion [2] r c = true) ∧
    (∀ c : Coord, inShape [2] c = true →
      asnumpyModel intOps
        ⟨[2], [(0, [⟨fun c => c.headD 0 * 3 + 1, [⟨0, 2, 1⟩], []⟩])], ModeName.replica⟩ c =
        some ((fun c : Coord => c.headD 0 * 3 + 1) c)) :=
  ⟨rfl, rfl, coversB_covers [2] [(0, [[⟨0, 2, 1⟩]])] (by decide),
    distributed_array_replica_roundtrip intOps true (fun c => c.headD 0 * 3 + 1) [2]
      [(0, [[IdxItem.slcIdx ⟨none, none, none⟩]])] [(0, [[⟨0, 2, 1⟩]])]
      ⟨[2], [(0, [⟨fun c => c.headD 0 * 3 + 1, [⟨0, 2, 1⟩], []⟩])], ModeName.replica⟩
      (fun c => c.headD 0 * 3 + 1) rfl rfl
      (coversB_covers [2] [(0, [[⟨0, 2, 1⟩]])] (by decide))⟩

theorem convertOne_step_pos (len : Nat) (item : IdxItem) (s : PySlice)
    (h : convertOne len item = .ok s) : 0 < s.step := by
  rcases item with i | sa | _
  · simp only [convertOne] at h
    split_ifs at h
    injection h with h
    subst h
    exact zero_lt_one
  · simp only [convertOne] at h
    by_cases h0 : (sa.step.getD 1 == 0) = true
    · rw [if_pos h0] at h
      exact absurd h (by simp)
    · rw [if_neg h0] at h
      split_ifs at h with h1 h2
      injection h with h
      subst h
      show 0 < (sliceArgIndices sa len).2.2
      have hstep : (sliceArgIndices sa len).2.2 = sa.step.getD 1 := rfl
      rw [hstep]
      simp only [beq_iff_eq] at h0
      rw [hstep] at h1
      omega
  · exact absurd h (by simp [convertOne])

theorem convertGo_spec : ∀ (shape : List Nat) (items : List IdxItem) (r : Region),
    convertGo shape items = .ok r →
    (items.length = shape.length → r.length = shape.length) ∧ ∀ s ∈ r, 0 < s.step := by
  intro shape
  induction shape with
  | nil =>
      intro items r h
      rcases items with _ | ⟨it, its⟩
      · injection h with h
        subst h
        exact ⟨fun _ => rfl, by simp⟩
      · injection h with h
        subst h
        exact ⟨by simp, by simp⟩
  | cons L Ls ih =>
      intro items r h
      rcases items with _ | ⟨it, its⟩
      · injection h with h
        subst h
        exact ⟨by simp, by simp⟩
      · unfold convertGo at h
        cases h1 : convertOne L it with
        | error e => rw [h1] at h; exact absurd h (by simp [Bind.bind, Except.bind])
        | ok s =>
            rw [h1] at h
            cases h2 : convertGo Ls its with
            | error e =>
                rw [h2] at h
                exact absurd h (by simp [Bind.bind, Except.bind])
            | ok rest =>
                rw [h2] at h
                simp only [Bind.bind, Except.bind, pure, Except.pure] at h
                injection h with h
                subst h
                obtain ⟨hlen, hsteps⟩ := ih its rest h2
                refine ⟨fun hl => ?_, ?_⟩
                · simp only [List.length_cons] at hl ⊢
                  rw [hlen (by omega)]
                · intro x hx
                  rcases List.mem_cons.mp hx with hx | hx
                  · subst hx
                    exact convertOne_step_pos L it x h1
                  · exact hsteps x hx

theorem convertChunkIdx_spec (shape : List Nat) (idx : List IdxItem) (r : Region)
    (h : convertChunkIdxToSlices shape idx = .ok r) :
    r.length = shape.length ∧ ∀ s ∈ r, 0 < s.step := by
  unfold convertChunkIdxToSlices at h
  split_ifs at h with hlen
  obtain ⟨hl, hs⟩ := convertGo_spec shape _ r h
  refine ⟨hl ?_, hs⟩
  rw [List.length_append, List.length_replicate]
  omega

theorem insertSorted_mem {le : β → β → Bool} {x y : β} :
    ∀ {l : List β}, y ∈ insertSorted le x l → y = x ∨ y ∈ l := by
  intro l
  induction l with
  | nil => intro h; simp [insertSorted] at h; exact Or.inl h
  | cons z zs ih =>
      intro h
      unfold insertSorted at h
      split_ifs at h with hle
      · rcases List.mem_cons.mp h with h | h
        · exact Or.inr (by simp [h])
        · rcases ih h with h | h
          · exact Or.inl h
          · exact Or.inr (by simp [h])
      · rcases List.mem_cons.mp h with h | h
        · exact Or.inl h
        · exact Or.inr h

theorem sortRegions_mem {shape : List Nat} {rs : List Region} {r : Region}
    (h : r ∈ sortRegions shape rs) : r ∈ rs := by
  unfold sortRegions at h
  suffices haux : ∀ (l : List Region) (acc : List Region),
      r ∈ l.foldl (fun acc x =>
        insertSorted (fun r1 r2 => keyLe (regionKey shape r1) (regionKey shape r2)) x acc) acc →
      r ∈ acc ∨ r ∈ l by
    rcases haux rs [] h with h | h
    · simp at h
    · exact h
  intro l
  induction l with
  | nil => intro acc h; exact Or.inl h
  | cons x xs ih =>
      intro acc h
      rcases ih _ h with h | h
      · rcases insertSorted_mem h with h | h
        · exact Or.inr (by simp [h])
        · exact Or.inl h
      · exact Or.inr (by simp [h])

theorem mapM_except_ok_mem {f : β → Except String γ} :
    ∀ (l : List β) (r : List γ), l.mapM f = .ok r →
      ∀ y ∈ r, ∃ x ∈ l, f x = .ok y := by
  intro l
  induction l with
  | nil =>
      intro r h y hy
      simp only [List.mapM_nil, pure, Except.pure] at h
      injection h with h
      subst h
      simp at hy
  | cons x xs ih =>
      intro r h y hy
      rw [List.mapM_cons] at h
      cases h1 : f x with
      | error e =>
          rw [h1] at h
          exact absurd h (by simp [Bind.bind, Except.bind])
      | ok v =>
          rw [h1] at h
          cases h2 : xs.mapM f with
          | error e =>
              rw [h2] at h
              exact absurd h (by simp [Bind.bind, Except.bind])
          | ok vs =>
              rw [h2] at h
              simp only [Bind.bind, Except.bind, pure, Except.pure] at h
              injection h with h
              subst h
              rcases List.mem_cons.mp hy with hy | hy
              · exact ⟨x, by simp, by rw [h1, hy]⟩
              · obtain ⟨x', hx', hfx'⟩ := ih vs h2 y hy
                exact ⟨x', by simp [hx'], hfx'⟩

theorem convertIndexMap_regions (shape : List Nat) :
    ∀ (im : List (Nat × List (List IdxItem))) (nim : List (Nat × List Region)),
    convertIndexMap shape im = .ok nim →
    ∀ r ∈ flatRegions nim, r.length = shape.length ∧ ∀ s ∈ r, 0 < s.step := by
  intro im
  induction im with
  | nil =>
      intro nim h r hr
      injection h with h
      subst h
      simp [flatRegions] at hr
  | cons p rest ih =>
      intro nim h r hr
      unfold convertIndexMap at h
      cases h1 : p.2.mapM (convertChunkIdxToSlices shape) with
      | error e =>
          rw [h1] at h
          exact absurd h (by simp [Bind.bind, Except.bind])
      | ok rs =>
          rw [h1] at h
          cases h2 : convertIndexMap shape rest with
          | error e =>
              rw [h2] at h
              exact absurd h (by simp [Bind.bind, Except.bind])
          | ok rest' =>
              rw [h2] at h
              simp only [Bind.bind, Except.bind, pure, Except.pure] at h
              injection h with h
              subst h
              unfold flatRegions at hr
              rw [List.map_cons, List.flatten_cons, List.mem_append] at hr
              rcases hr with hr | hr
              · have hmem : r ∈ rs := sortRegions_mem hr
                obtain ⟨idx, _, hconv⟩ := mapM_except_ok_mem p.2 rs h1 r hmem
                exact convertChunkIdx_spec shape idx r hconv
              · exact ih rest' h2 r hr

theorem inRegion_cons (L : Nat) (Ls : List Nat) (s : PySlice) (r : Region)
    (x : Int) (c : Coord) :
    inRegion (L :: Ls) (s :: r) (x :: c) = (inSlice s L x && inRegion Ls r c) := by
  simp [inRegion, zipWith3, List.all_cons, Bool.and_left_comm, Bool.and_comm,
    Bool.and_assoc]

theorem inRegion_true_lengths {shape : List Nat} {r : Region} {c : Coord}
    (h : inRegion shape r c = true) :
    r.length = shape.length ∧ c.length = shape.length := by
  unfold inRegion at h
  simp only [Bool.and_eq_true, beq_iff_eq] at h
  exact ⟨h.1.1, h.1.2⟩

theorem indexIntersection_some_nonempty :
    ∀ (shape : List Nat) (r1 r2 inter : Region),
    r1.length = shape.length → r2.length = shape.length →
    (∀ s ∈ r1, 0 < s.step) → (∀ s ∈ r2, 0 < s.step) →
    indexIntersection r1 r2 shape = some inter →
    ∃ c : Coord, inRegion shape r1 c = true ∧ inRegion shape r2 c = true := by
  intro shape
  induction shape with
  | nil =>
      intro r1 r2 inter hl1 hl2 _ _ _
      rcases r1 with _ | _
      · rcases r2 with _ | _
        · exact ⟨[], by decide, by decide⟩
        · simp at hl2
      · simp at hl1
  | cons L Ls ih =>
      intro r1 r2 inter hl1 hl2 hs1 hs2 h
      rcases r1 with _ | ⟨a, as⟩
      · simp at hl1
      rcases r2 with _ | ⟨b, bs⟩
      · simp at hl2
      rw [indexIntersection_cons] at h
      rcases hab : sliceIntersection a b L with _ | s
      · rw [hab] at h; exact absurd h (by simp)
      · rw [hab] at h
        rcases hrest : indexIntersection as bs Ls with _ | t
        · rw [hrest] at h; exact absurd h (by simp)
        · obtain ⟨c, hc1, hc2⟩ := ih as bs t (by simpa using hl1) (by simpa using hl2)
            (fun x hx => hs1 x (by simp [hx])) (fun x hx => hs2 x (by simp [hx])) hrest
          obtain ⟨hsa, hsb⟩ := sliceIntersection_some_start a b L
            (hs1 a (by simp)) (hs2 b (by simp)) s hab
          refine ⟨s.start :: c, ?_, ?_⟩
          · rw [inRegion_cons, hsa, hc1]; rfl
          · rw [inRegion_cons, hsb, hc2]; rfl

theorem disjoint_to_none (shape : List Nat) (r1 r2 : Region)
    (hl1 : r1.length = shape.length) (hl2 : r2.length = shape.length)
    (hs1 : ∀ s ∈ r1, 0 < s.step) (hs2 : ∀ s ∈ r2, 0 < s.step)
    (hdisj : regionsDisjoint shape r1 r2) :
    indexIntersection r1 r2 shape = none := by
  rcases h : indexIntersection r1 r2 shape with _ | inter
  · rfl
  · obtain ⟨c, h1, h2⟩ :=
      indexIntersection_some_nonempty shape r1 r2 inter hl1 hl2 hs1 hs2 h
    exact absurd ⟨h1, h2⟩ (hdisj c)

theorem none_to_disjoint :
    ∀ (shape : List Nat) (r1 r2 : Region),
    (∀ s ∈ r1, 0 < s.step) → (∀ s ∈ r2, 0 < s.step) →
    indexIntersection r1 r2 shape = none →
    regionsDisjoint shape r1 r2 := by
  intro shape
  induction shape with
  | nil =>
      intro r1 r2 _ _ h c ⟨hc1, hc2⟩
      have l1 := (inRegion_true_lengths hc1).1
      have l2 := (inRegion_true_lengths hc2).1
      rcases r1 with _ | _
      · rcases r2 with _ | _
        · exact absurd h (by simp [indexIntersection, zipWith3, optionsAll])
        · simp at l2
      · simp at l1
  | cons L Ls ih =>
      intro r1 r2 hs1 hs2 h c ⟨hc1, hc2⟩
      have l1 := inRegion_true_lengths hc1
      have l2 := inRegion_true_lengths hc2
      rcases r1 with _ | ⟨a, as⟩
      · simp at l1
      rcases r2 with _ | ⟨b, bs⟩
      · simp at l2
      rcases c with _ | ⟨x, c⟩
      · simp at l1
      rw [inRegion_cons, Bool.and_eq_true] at hc1 hc2
      rw [indexIntersection_cons] at h
      rcases hab : sliceIntersection a b L with _ | s
      · exact (sliceIntersection_char a b L (hs1 a (by simp)) (hs2 b (by simp))).2.1
          hab x ⟨hc1.1, hc2.1⟩
      · rw [hab] at h
        rcases hrest : indexIntersection as bs Ls with _ | t
        · exact ih as bs (fun y hy => hs1 y (by simp [hy]))
            (fun y hy => hs2 y (by simp [hy])) hrest c ⟨hc1.2, hc2.2⟩
        · rw [hrest] at h
          exact absurd h (by simp)

theorem pairwiseB_sound {p : β → β → Bool} :
    ∀ {l : List β}, pairwiseB p l = true →
    List.Pairwise (fun a b => p a b = true) l := by
  intro l
  induction l with
  | nil => intro _; exact List.Pairwise.nil
  | cons x xs ih =>
      intro h
      unfold pairwiseB at h
      rw [Bool.and_eq_true] at h
      rw [List.pairwise_cons]
      exact ⟨fun y hy => List.all_eq_true.mp h.1 y hy, ih h.2⟩

theorem disjointB_sound (shape : List Nat) (nim : List (Nat × List Region))
    (hreg : ∀ r ∈ flatRegions nim, ∀ s ∈ r, 0 < s.step)
    (h : disjointB shape nim = true) :
    List.Pairwise (regionsDisjoint shape) (flatRegions nim) := by
  unfold disjointB at h
  have hp := pairwiseB_sound h
  refine hp.imp_of_mem ?_
  intro r1 r2 h1 h2 hb
  rw [Bool.and_eq_true, beq_iff_eq, beq_iff_eq] at hb
  exact none_to_disjoint shape r1 r2 (hreg r1 h1) (hreg r2 h2) hb.1

theorem extractChunks_spec {α : Type} (ops : DtypeOps α) (mode : ModeName)
    (shape : List Nat) :
    ∀ (rs : List Region) (W : Coord → α), List.Pairwise (regionsDisjoint shape) rs →
      ((extractChunks ops mode shape W rs).1.map Chunk.index = rs ∧
       (∀ ch ∈ (extractChunks ops mode shape W rs).1,
          ch.updates = [] ∧ ∀ c, inRegion shape ch.index c = true → ch.data c = W c) ∧
       (∀ c : Coord, (∀ r ∈ rs, ¬ inRegion shape r c = true) →
          (extractChunks ops mode shape W rs).2 c = W c)) := by
  intro rs
  induction rs with
  | nil =>
      intro W _
      exact ⟨rfl, fun ch hch => absurd hch (List.not_mem_nil ch), fun c _ => rfl⟩
  | cons r rest ih =>
      intro W hpair
      rw [List.pairwise_cons] at hpair
      obtain ⟨hhead, htail⟩ := hpair
      set W' := (if isOpMode mode && !modeIdempotent mode then
        fun c => if inRegion shape r c then identityOf ops mode else W c
       else W) with hWdef
      have hW' : ∀ c : Coord, inRegion shape r c = false → W' c = W c := by
        intro c hc
        rw [hWdef]
        by_cases hcond : (isOpMode mode && !modeIdempotent mode) = true
        · rw [if_pos hcond]
          show (if inRegion shape r c = true then identityOf ops mode else W c) = W c
          rw [hc]
          simp
        · rw [if_neg hcond]
      have hstep : extractChunks ops mode shape W (r :: rest) =
          ((⟨W, r, []⟩ : Chunk α) :: (extractChunks ops mode shape W' rest).1,
           (extractChunks ops mode shape W' rest).2) := rfl
      obtain ⟨ihmap, ihch, ihsnd⟩ := ih W' htail
      rw [hstep]
      refine ⟨?_, ?_, ?_⟩
      · show r :: (extractChunks ops mode shape W' rest).1.map Chunk.index = r :: rest
        rw [ihmap]
      · intro ch hch
        rcases List.mem_cons.mp hch with hch | hch
        · subst hch
          exact ⟨rfl, fun _ _ => rfl⟩
        · obtain ⟨hupd, hdata⟩ := ihch ch hch
          refine ⟨hupd, fun c hc => ?_⟩
          rw [hdata c hc]
          apply hW'
          have hidx : ch.index ∈ rest := by
            rw [← ihmap]
            exact List.mem_map.mpr ⟨ch, hch, rfl⟩
          have hdisj := hhead ch.index hidx
          cases hr : inRegion shape r c
          · rfl
          · exact absurd ⟨hr, hc⟩ (hdisj c)
      · intro c hc
        rw [ihsnd c (fun x hx => hc x (by simp [hx]))]
        apply hW'
        cases hr : inRegion shape r c
        · rfl
        · exact absurd hr (hc r (by simp))

theorem shardLoop_spec {α : Type} (ops : DtypeOps α) (mode : ModeName)
    (shape : List Nat) :
    ∀ (nim : List (Nat × List Region)) (W : Coord → α),
      List.Pairwise (regionsDisjoint shape) (flatRegions nim) →
      ((flattenChunks (shardLoop ops mode shape W nim).1).map Chunk.index =
        flatRegions nim ∧
       (∀ ch ∈ flattenChunks (shardLoop ops mode shape W nim).1,
          ch.updates = [] ∧ ∀ c, inRegion shape ch.index c = true → ch.data c = W c) ∧
       (∀ c : Coord, (∀ r ∈ flatRegions nim, ¬ inRegion shape r c = true) →
          (shardLoop ops mode shape W nim).2 c = W c)) := by
  intro nim
  induction nim with
  | nil =>
      intro W _
      refine ⟨rfl, ?_, fun c _ => rfl⟩
      intro ch hch
      simp [shardLoop, flattenChunks] at hch
  | cons p rest ih =>
      intro W hpair
      have hflat : flatRegions (p :: rest) = p.2 ++ flatRegions rest := by
        unfold flatRegions
        rw [List.map_cons, List.flatten_cons]
      rw [hflat] at hpair
      rw [List.pairwise_append] at hpair
      obtain ⟨hp1, hp2, hcross⟩ := hpair
      obtain ⟨emap, ech, esnd⟩ := extractChunks_spec ops mode shape p.2 W hp1
      set W' := (extractChunks ops mode shape W p.2).2 with hWdef
      obtain ⟨imap, ich, isnd⟩ := ih W' hp2
      have hstep : shardLoop ops mode shape W (p :: rest) =
          ((p.1, (extractChunks ops mode shape W p.2).1) ::
              (shardLoop ops mode shape W' rest).1,
            (shardLoop ops mode shape W' rest).2) := rfl
      rw [hstep]
      have hW'W : ∀ (r : Region), r ∈ flatRegions rest →
          ∀ c, inRegion shape r c = true → W' c = W c := by
        intro r hr c hc
        apply esnd
        intro r' hr'
        cases hin : inRegion shape r' c
        · simp
        · exact absurd ⟨hin, hc⟩ (hcross r' hr' r hr c)
      refine ⟨?_, ?_, ?_⟩
      · rw [flattenChunks_cons, List.map_append, hflat]
        show (extractChunks ops mode shape W p.2).1.map Chunk.index ++ _ = _
        rw [emap, imap]
      · intro ch hch
        rw [flattenChunks_cons, List.mem_append] at hch
        rcases hch with hch | hch
        · exact ech ch hch
        · obtain ⟨hupd, hdata⟩ := ich ch hch
          refine ⟨hupd, fun c hc => ?_⟩
          rw [hdata c hc]
          have hidx : ch.index ∈ flatRegions rest := by
            rw [← imap]
            exact List.mem_map.mpr ⟨ch, hch, rfl⟩
          exact hW'W ch.index hidx c hc
      · intro c hc
        rw [hflat] at hc
        rw [isnd c (fun r hr => hc r (List.mem_append.mpr (Or.inr hr)))]
        exact esnd c (fun r hr => hc r (List.mem_append.mpr (Or.inl hr)))

theorem applyAndUpdateChunks_none {α : Type} (ops : DtypeOps α) (opMode : ModeName)
    (shape : List Nat) (src dst : Chunk α)
    (h : indexIntersection src.index dst.index shape = none) :
    applyAndUpdateChunks ops opMode shape src dst = (src, dst) := by
  unfold applyAndUpdateChunks
  rw [h]

theorem copyOnIntersection_none {α : Type} (shape : List Nat) (src dst : Chunk α)
    (h : indexIntersection src.index dst.index shape = none) :
    copyOnIntersection shape src dst = dst := by
  unfold copyOnIntersection
  rw [h]

theorem forwardApply_none {α : Type} (ops : DtypeOps α) (opMode : ModeName)
    (shape : List Nat) :
    ∀ (rest : List (Chunk α)) (src : Chunk α),
      (∀ dst ∈ rest, indexIntersection src.index dst.index shape = none) →
      forwardApply ops opMode shape src rest = (src, rest) := by
  intro rest
  induction rest with
  | nil => intro src _; rfl
  | cons dst rest ih =>
      intro src h
      show (let sd := applyAndUpdateChunks ops opMode shape src dst
            let srest := forwardApply ops opMode shape sd.1 rest
            (srest.1, sd.2 :: srest.2)) = (src, dst :: rest)
      rw [applyAndUpdateChunks_none ops opMode shape src dst (h dst (by simp))]
      show ((forwardApply ops opMode shape src rest).1,
        dst :: (forwardApply ops opMode shape src rest).2) = (src, dst :: rest)
      rw [ih src (fun d hd => h d (by simp [hd]))]

theorem forwardPassAux_none {α : Type} (ops : DtypeOps α) (opMode : ModeName)
    (shape : List Nat) :
    ∀ (n : Nat) (chunks : List (Chunk α)),
      List.Pairwise (fun c1 c2 : Chunk α =>
        indexIntersection c1.index c2.index shape = none) chunks →
      (∀ ch ∈ chunks, ch.updates = []) →
      forwardPassAux ops opMode shape n chunks = chunks := by
  intro n
  induction n with
  | zero => intro chunks _ _; rfl
  | succ n ih =>
      intro chunks hpair hupd
      rcases chunks with _ | ⟨chunk, rest⟩
      · rfl
      · rw [List.pairwise_cons] at hpair
        show (forwardApply ops opMode shape (applyUpdates ops opMode shape chunk) rest).1 ::
          forwardPassAux ops opMode shape n
            (forwardApply ops opMode shape (applyUpdates ops opMode shape chunk) rest).2 =
          chunk :: rest
        rw [applyUpdates_nil ops opMode shape chunk (hupd chunk (by simp))]
        rw [forwardApply_none ops opMode shape rest chunk hpair.1]
        rw [ih rest hpair.2 (fun ch hch => hupd ch (by simp [hch]))]

theorem backwardRevAux_none {α : Type} (ops : DtypeOps α) (shape : List Nat) :
    ∀ (n : Nat) (chunks : List (Chunk α)),
      List.Pairwise (fun c1 c2 : Chunk α =>
        indexIntersection c1.index c2.index shape = none) chunks →
      (∀ ch ∈ chunks, ch.updates = []) →
      backwardRevAux ops shape n chunks = chunks := by
  intro n
  induction n with
  | zero => intro chunks _ _; rfl
  | succ n ih =>
      intro chunks hpair hupd
      rcases chunks with _ | ⟨chunk, rest⟩
      · rfl
      · rw [List.pairwise_cons] at hpair
        show applyUpdates ops ModeName.replica shape chunk ::
          backwardRevAux ops shape n
            (rest.map (fun d => copyOnIntersection shape
              (applyUpdates ops ModeName.replica shape chunk) d)) = chunk :: rest
        rw [applyUpdates_nil ops ModeName.replica shape chunk (hupd chunk (by simp))]
        rw [listMapId (fun d hd => copyOnIntersection_none shape chunk d (hpair.1 d hd))]
        rw [ih rest hpair.2 (fun ch hch => hupd ch (by simp [hch]))]

theorem allReduceList_none {α : Type} (ops : DtypeOps α) (opMode : ModeName)
    (shape : List Nat) (chunks : List (Chunk α))
    (hpair : List.Pairwise (fun c1 c2 : Chunk α =>
      indexIntersection c1.index c2.index shape = none ∧
      indexIntersection c2.index c1.index shape = none) chunks)
    (hupd : ∀ ch ∈ chunks, ch.updates = []) :
    allReduceList ops opMode shape chunks = chunks := by
  unfold allReduceList forwardPass backwardRev
  rw [forwardPassAux_none ops opMode shape chunks.length chunks
    (hpair.imp (fun h => h.1)) hupd]
  rw [backwardRevAux_none ops shape chunks.reverse.length chunks.reverse
    (List.pairwise_reverse.mpr (hpair.imp (fun h => h.2)))
    (fun ch hch => hupd ch (List.mem_reverse.mp hch))]
  exact List.reverse_reverse chunks

theorem unflatten_flatten {α : Type} :
    ∀ (m : ChunksMap α), unflattenChunks m (flattenChunks m) = m := by
  intro m
  induction m with
  | nil => rfl
  | cons p rest ih =>
      show (p.1, (p.2 ++ flattenChunks rest).take p.2.length) ::
        unflattenChunks rest ((p.2 ++ flattenChunks rest).drop p.2.length) = p :: rest
      rw [List.take_left, List.drop_left, ih]

theorem copyChunk_id {α : Type} (c : Chunk α) : copyChunk c = c := rfl

theorem copyChunksMap_id {α : Type} (m : ChunksMap α) : copyChunksMap m = m := by
  unfold copyChunksMap
  apply listMapId
  intro p _
  rw [listMapId (fun c _ => copyChunk_id c)]

/-- C2: a sum-mode distributed array whose (converted) chunk regions partition
the shape — pairwise disjoint and covering — materializes, after
`change_mode("replica")`, to exactly the original host array: no cell is
counted more than once. -/
theorem sum_mode_to_replica_roundtrip {α : Type} (ops : DtypeOps α) (isNdarray : Bool)
    (hostArray : Coord → α) (shape : List Nat)
    (indexMap : List (Nat × List (List IdxItem))) (nim : List (Nat × List Region))
    (arr : DArray α) (after : Coord → α)
    (hconv : convertIndexMap shape indexMap = .ok nim)
    (hok : distributedArray ops isNdarray hostArray shape indexMap ModeName.sum =
      .ok (arr, after))
    (hdisj : List.Pairwise (regionsDisjoint shape) (flatRegions nim))
    (hcov : ∀ c : Coord, inShape shape c = true →
      ∃ r ∈ flatRegions nim, inRegion shape r c = true) :
    ∀ c : Coord, inShape shape c = true →
      asnumpyModel ops (changeMode ops arr ModeName.replica) c = some (hostArray c) := by
  intro c hc
  unfold distributedArray at hok
  rw [hconv] at hok
  simp only [Bind.bind, Except.bind, pure, Except.pure] at hok
  injection hok with hok
  have harr : arr = ⟨shape, (shardLoop ops ModeName.sum shape hostArray nim).1,
      ModeName.sum⟩ := by
    have := congrArg Prod.fst hok
    exact this.symm
  subst harr
  set M := (shardLoop ops ModeName.sum shape hostArray nim).1 with hM
  obtain ⟨hmap, hch, -⟩ := shardLoop_spec ops ModeName.sum shape nim hostArray hdisj
  have hregfacts := convertIndexMap_regions shape indexMap nim hconv
  have hchpair : List.Pairwise (fun c1 c2 : Chunk α =>
      indexIntersection c1.index c2.index shape = none ∧
      indexIntersection c2.index c1.index shape = none) (flattenChunks M) := by
    have hidxpair : List.Pairwise (fun r1 r2 => regionsDisjoint shape r1 r2)
        ((flattenChunks M).map Chunk.index) := by
      rw [hmap]
      exact hdisj
    rw [List.pairwise_map] at hidxpair
    refine hidxpair.imp_of_mem ?_
    intro c1 c2 h1 h2 hd
    have hi1 : c1.index ∈ flatRegions nim := by
      rw [← hmap]
      exact List.mem_map.mpr ⟨c1, h1, rfl⟩
    have hi2 : c2.index ∈ flatRegions nim := by
      rw [← hmap]
      exact List.mem_map.mpr ⟨c2, h2, rfl⟩
    obtain ⟨hl1, hs1⟩ := hregfacts c1.index hi1
    obtain ⟨hl2, hs2⟩ := hregfacts c2.index hi2
    refine ⟨disjoint_to_none shape _ _ hl1 hl2 hs1 hs2 hd,
      disjoint_to_none shape _ _ hl2 hl1 hs2 hs1 ?_⟩
    intro x hx
    exact hd x ⟨hx.2, hx.1⟩
  have hreplica : replicaModeChunksMap ops (⟨shape, M, ModeName.sum⟩ : DArray α) = M := by
    show (if isOpMode ModeName.sum = true then
        allReduceIntersections ops ModeName.sum shape
          (copyChunksMap M)
      else copyChunksMap M) = M
    rw [if_pos (show isOpMode ModeName.sum = true from rfl), copyChunksMap_id]
    unfold allReduceIntersections
    rw [allReduceList_none ops ModeName.sum shape (flattenChunks M) hchpair
      (fun ch h => (hch ch h).1)]
    exact unflatten_flatten M
  have hchange : changeMode ops (⟨shape, M, ModeName.sum⟩ : DArray α) ModeName.replica =
      ⟨shape, M, ModeName.replica⟩ := by
    show (if (ModeName.replica == ModeName.sum) = true then
        (⟨shape, M, ModeName.sum⟩ : DArray α)
      else if isOpMode ModeName.replica = true then
        ⟨shape, opModeChunksMap ops ⟨shape, M, ModeName.sum⟩ ModeName.replica,
          ModeName.replica⟩
      else ⟨shape, replicaModeChunksMap ops ⟨shape, M, ModeName.sum⟩,
        ModeName.replica⟩) = ⟨shape, M, ModeName.replica⟩
    rw [if_neg (by decide), if_neg (by decide), hreplica]
  rw [hchange]
  obtain ⟨r, hrmem, hrin⟩ := hcov c hc
  have hrmap : r ∈ (flattenChunks M).map Chunk.index := by
    rw [hmap]
    exact hrmem
  obtain ⟨ch, hchmem, hchidx⟩ := List.mem_map.mp hrmap
  exact asnumpyModel_replica_eq ops shape M hostArray c
    (fun x hx => ⟨(hch x hx).1, (hch x hx).2 c⟩)
    ⟨ch, hchmem, by rw [hchidx]; exact hrin⟩

theorem sum_mode_to_replica_roundtrip_witness :
    (convertIndexMap [2] demoIndexMap = .ok demoNim) ∧
    (distributedArray intOps true demoHost [2] demoIndexMap ModeName.sum =
      .ok (demoArray, demoHost)) ∧
    List.Pairwise (regionsDisjoint [2]) (flatRegions demoNim) ∧
    (∀ c : Coord, inShape [2] c = true →
      ∃ r ∈ flatRegions demoNim, inRegion [2] r c = true) ∧
    (∀ c : Coord, inShape [2] c = true →
      asnumpyModel intOps (changeMode intOps demoArray ModeName.replica) c =
        some (demoHost c)) :=
  ⟨rfl, rfl,
    disjointB_sound [2] demoNim
      (fun r hr => (convertIndexMap_regions [2] demoIndexMap demoNim rfl r hr).2)
      (by decide),
    coversB_covers [2] demoNim (by decide),
    sum_mode_to_replica_roundtrip intOps true demoHost [2] demoIndexMap demoNim
      demoArray demoHost rfl rfl
      (disjointB_sound [2] demoNim
        (fun r hr => (convertIndexMap_regions [2] demoIndexMap demoNim rfl r hr).2)
        (by decide))
      (coversB_covers [2] demoNim (by decide))⟩


theorem toReplicaMode_replica (ops : DtypeOps α) (arr : DArray α)
    (h : arr.mode = ModeName.replica) : toReplicaMode ops arr = arr := by
  unfold toReplicaMode
  rw [h]
  simp

theorem applyUpdates_data_of_nil (ops : DtypeOps α) (mode : ModeName)
    (shape : List Nat) (ch : Chunk α) (h : ch.updates = []) :
    (applyUpdates ops mode shape ch).data = ch.data := by
  simp [applyUpdates, h]

theorem lookup_map_snd {β γ : Type _} (f : β → γ) (m : List (Nat × β)) (k : Nat) :
    (m.map (fun p => (p.1, f p.2))).lookup k = (m.lookup k).map f := by
  induction m with
  | nil => rfl
  | cons p rest ih =>
      obtain ⟨a, b⟩ := p
      cases h : (k == a) <;> simp [List.lookup, h, ih]

theorem chunksOn_drain (ops : DtypeOps α) (a : DArray α) (dev : Nat) :
    chunksOn (drainArray ops a) dev =
      (chunksOn a dev).map (applyUpdates ops a.mode a.shape) := by
  simp only [chunksOn, drainArray, drainChunksMap]
  rw [lookup_map_snd]
  cases a.chunksMap.lookup dev <;> rfl

theorem chunkAt_drain [Inhabited α] (ops : DtypeOps α) (a : DArray α) (dev i : Nat) :
    chunkAt (drainArray ops a) dev i = applyUpdates ops a.mode a.shape (chunkAt a dev i) := by
  unfold chunkAt
  rw [chunksOn_drain, List.getD_eq_getElem?_getD, List.getD_eq_getElem?_getD,
    List.getElem?_map]
  rcases hg : (chunksOn a dev)[i]? with _ | ch
  · show (⟨fun _ => default, [], []⟩ : Chunk α) =
      applyUpdates ops a.mode a.shape ⟨fun _ => default, [], []⟩
    rfl
  · rfl

theorem indexMapOf_drain (ops : DtypeOps α) (a : DArray α) :
    indexMapOf (drainArray ops a) = indexMapOf a := by
  simp [indexMapOf, drainArray, drainChunksMap, List.map_map, Function.comp, applyUpdates]

theorem chunksMap_proj_drain (ops : DtypeOps α) (a : DArray α) :
    (drainArray ops a).chunksMap.map (fun q => (q.1, q.2.length)) =
      a.chunksMap.map (fun q => (q.1, q.2.length)) := by
  simp [drainArray, drainChunksMap, List.map_map, Function.comp]

theorem lookup_mem_snd {β : Type _} {m : List (Nat × β)} {k : Nat} {v : β}
    (h : m.lookup k = some v) : v ∈ m.map Prod.snd := by
  induction m with
  | nil => simp [List.lookup] at h
  | cons p rest ih =>
      obtain ⟨a, b⟩ := p
      cases hk : (k == a) <;> simp only [List.lookup, hk] at h
      · exact List.mem_cons_of_mem _ (ih h)
      · rw [Option.some_inj] at h
        subst h
        exact List.mem_cons_self _ _

theorem chunkAt_updates_of_total_zero [Inhabited α] (a : DArray α)
    (h : totalUpdates a = 0) (dev i : Nat) : (chunkAt a dev i).updates = [] := by
  have hall : ∀ ch ∈ flattenChunks a.chunksMap, ch.updates = [] := by
    intro ch hch
    have hz := List.sum_eq_zero_iff.mp h _ (List.mem_map_of_mem _ hch)
    exact List.length_eq_zero.mp hz
  unfold chunkAt chunksOn
  rcases hl : a.chunksMap.lookup dev with _ | l
  · rfl
  · rcases hg : l[i]? with _ | ch
    · rw [show (some l).getD ([] : List (Chunk α)) = l from rfl,
        List.getD_eq_getElem?_getD, hg]
      rfl
    · rw [show (some l).getD ([] : List (Chunk α)) = l from rfl,
        List.getD_eq_getElem?_getD, hg]
      show ch.updates = []
      apply hall
      obtain ⟨hlt, hEq⟩ := List.getElem?_eq_some.mp hg
      have hmem : ch ∈ l := hEq ▸ List.getElem_mem hlt
      exact List.mem_flatten.mpr ⟨l, lookup_mem_snd hl, hmem⟩

theorem countChunks_eq_proj (args : List (ArgKey × DArray α)) :
    countChunks args =
      countProj (args.map (fun p => p.2.chunksMap.map (fun q => (q.1, q.2.length)))) := by
  unfold countChunks countProj
  rw [List.foldlM_map]
  congr 1
  funext counts p
  rw [List.foldlM_map]
  rfl

theorem countChunks_drain_eq (ops : DtypeOps α) (x y : DArray α) :
    countChunks [(ArgKey.pos 0, drainArray ops x), (ArgKey.pos 1, drainArray ops y)] =
      countChunks [(ArgKey.pos 0, x), (ArgKey.pos 1, y)] := by
  rw [countChunks_eq_proj, countChunks_eq_proj]
  simp only [List.map_cons, List.map_nil, chunksMap_proj_drain]

theorem except_bind_ok {E B C : Type _} (a : B) (f : B → Except E C) :
    (Except.ok a >>= f) = f a := rfl

theorem except_bind_error {E B C : Type _} (e : E) (f : B → Except E C) :
    ((Except.error e : Except E B) >>= f) = Except.error e := rfl

theorem classifyPos_two (ops : DtypeOps α) (S : List Nat)
    (im : List (Nat × List Region)) (x y : DArray α)
    (hx : x.shape = S) (hy : y.shape = S)
    (hxm : indexMapOf x = im) (hym : indexMapOf y = im)
    (hxr : x.mode = ModeName.replica) (hyr : y.mode = ModeName.replica) :
    classifyPos ops S im 0 [KArg.distArr x, KArg.distArr y] =
      .ok ([(ArgKey.pos 0, x), (ArgKey.pos 1, y)], []) := by
  have hxT : toReplicaMode ops x = x := toReplicaMode_replica ops x hxr
  have hyT : toReplicaMode ops y = y := toReplicaMode_replica ops y hyr
  simp [classifyPos, kargShape, hx, hy, hxm, hym, hxT, hyT, Except.bind]
  rfl

theorem executeKernel_reduce [Inhabited α] (ops : DtypeOps α) (x y : DArray α)
    (kernel : List α → List (String × α) → α)
    (hP : classifyPos ops x.shape (indexMapOf x) 0 [KArg.distArr x, KArg.distArr y] =
      .ok ([(ArgKey.pos 0, x), (ArgKey.pos 1, y)], [])) :
    executeKernel ops x kernel [KArg.distArr x, KArg.distArr y] [] =
      match countChunks [(ArgKey.pos 0, x), (ArgKey.pos 1, y)] with
      | .error e => .error e
      | .ok counts =>
          .ok ⟨x.shape,
            (execDevs ops x kernel 2 [] counts [(ArgKey.pos 0, x), (ArgKey.pos 1, y)]).1,
            ModeName.replica⟩ := by
  unfold executeKernel
  rw [hP, except_bind_ok]
  rw [show classifyKw x.shape (indexMapOf x) ([] : List (String × KArg α)) =
    Except.ok [] from rfl]
  rw [except_bind_ok, List.append_nil]
  rcases hc : countChunks [(ArgKey.pos 0, x), (ArgKey.pos 1, y)] with e | counts <;>
    simp only [hc] <;> rfl

theorem scanUpdates_two_left [Inhabited α] (dev i : Nat) (x y : DArray α)
    (hx : (chunkAt x dev i).updates = []) :
    scanUpdates dev i (none, []) [(ArgKey.pos 0, x), (ArgKey.pos 1, y)] =
      (if (chunkAt y dev i).updates.isEmpty then ((none : Option ArgKey), [], true)
       else (some (ArgKey.pos 1), (chunkAt y dev i).updates, true)) := by
  cases h : (chunkAt y dev i).updates.isEmpty <;>
    simp [scanUpdates, hx, h]

theorem scanUpdates_two_right [Inhabited α] (dev i : Nat) (x y : DArray α)
    (hy : (chunkAt y dev i).updates = []) :
    scanUpdates dev i (none, []) [(ArgKey.pos 0, x), (ArgKey.pos 1, y)] =
      (if (chunkAt x dev i).updates.isEmpty then ((none : Option ArgKey), [], true)
       else (some (ArgKey.pos 0), (chunkAt x dev i).updates, true)) := by
  cases h : (chunkAt x dev i).updates.isEmpty <;>
    simp [scanUpdates, hy, h]

theorem scan_flag_two [Inhabited α] (dev i : Nat) (x y : DArray α)
    (hone : (chunkAt x dev i).updates = [] ∨ (chunkAt y dev i).updates = []) :
    (scanUpdates dev i (none, []) [(ArgKey.pos 0, x), (ArgKey.pos 1, y)]).2.2 = true := by
  rcases hone with hx | hy
  · rw [scanUpdates_two_left dev i x y hx]
    cases h : (chunkAt y dev i).updates.isEmpty <;> simp [h]
  · rw [scanUpdates_two_right dev i x y hy]
    cases h : (chunkAt x dev i).updates.isEmpty <;> simp [h]

theorem execChunk_state [Inhabited α] (ops : DtypeOps α) (self : DArray α)
    (kernel : List α → List (String × α) → α) (nPos : Nat) (kwKeys : List String)
    (dev i : Nat) (ds : List (ArgKey × DArray α))
    (h : (scanUpdates dev i ((none : Option ArgKey), ([] : List (PendingUpdate α))) ds).2.2
        = true) :
    (execChunk ops self kernel nPos kwKeys dev i ds).2 = ds := by
  show (prepareUpdates ops self.shape ds dev i).2 = ds
  show (if (scanUpdates dev i (none, []) ds).2.2 then
      (((scanUpdates dev i (none, []) ds).1, (scanUpdates dev i (none, []) ds).2.1), ds)
    else ((none, []), ds.map (fun p => (p.1, drainArgsOnDev ops self.shape dev p.2)))).2 = ds
  rw [h]
  rfl

theorem execChunk_fst [Inhabited α] (ops : DtypeOps α) (self : DArray α)
    (kernel : List α → List (String × α) → α) (nPos : Nat) (kwKeys : List String)
    (dev i : Nat) (ds : List (ArgKey × DArray α))
    (key : Option ArgKey) (upds : List (PendingUpdate α))
    (h : scanUpdates dev i ((none : Option ArgKey), ([] : List (PendingUpdate α))) ds =
      (key, upds, true)) :
    (execChunk ops self kernel nPos kwKeys dev i ds).1 =
      ⟨kernelApply kernel
          ((List.range nPos).map (fun j => (chunkAt (distLookup ds (ArgKey.pos j)) dev i).data))
          (kwKeys.map (fun k => (k, (chunkAt (distLookup ds (ArgKey.kw k)) dev i).data))),
        (((indexMapOf self).lookup dev).getD []).getD i [],
        upds.map (fun u =>
          ((⟨kernelApply kernel
              ((List.range nPos).map (fun j =>
                if key == some (ArgKey.pos j) then u.1.data
                else (chunkAt (distLookup ds (ArgKey.pos j)) dev i).data))
              (kwKeys.map (fun k =>
                if key == some (ArgKey.kw k) then (k, u.1.data)
                else (k, (chunkAt (distLookup ds (ArgKey.kw k)) dev i).data)))⟩ :
            DataTransfer α), u.2))⟩ := by
  unfold execChunk prepareUpdates
  rw [h]
  rfl

theorem update_fold_commute (ops : DtypeOps α) (shape : List Nat) (k : Coord → α → α) :
    ∀ (updates : List (PendingUpdate α)) (z d : Coord → α),
      (∀ c, z c = k c (d c)) →
      ∀ c,
        ((updates.map (fun u =>
            ((⟨fun c2 => k c2 (u.1.data c2)⟩ : DataTransfer α), u.2))).foldl
          (applyOneUpdate ops ModeName.replica shape) z) c =
        k c ((updates.foldl (applyOneUpdate ops ModeName.replica shape) d) c) := by
  intro updates
  induction updates with
  | nil => intro z d hzd c; exact hzd c
  | cons u us ih =>
      intro z d hzd c
      simp only [List.map_cons, List.foldl_cons]
      apply ih
      intro c2
      unfold applyOneUpdate
      by_cases hin : inRegion shape u.2 c2 = true
      · rw [if_pos hin, if_pos hin]
        simp [isOpMode]
      · rw [if_neg hin, if_neg hin]
        exact hzd c2

theorem execChunksFrom_map [Inhabited α] (ops : DtypeOps α) (self : DArray α)
    (kernel : List α → List (String × α) → α) (nPos : Nat) (kwKeys : List String)
    (dev : Nat) :
    ∀ (n chunkI : Nat) (ds : List (ArgKey × DArray α)),
      (∀ i, (scanUpdates dev i ((none : Option ArgKey), ([] : List (PendingUpdate α)))
        ds).2.2 = true) →
      execChunksFrom ops self kernel nPos kwKeys dev chunkI n ds =
        ((List.range' chunkI n).map
          (fun i => (execChunk ops self kernel nPos kwKeys dev i ds).1), ds) := by
  intro n
  induction n with
  | zero => intro chunkI ds h; rfl
  | succ m ih =>
      intro chunkI ds h
      show ((execChunk ops self kernel nPos kwKeys dev chunkI ds).1 ::
          (execChunksFrom ops self kernel nPos kwKeys dev (chunkI + 1) m
            (execChunk ops self kernel nPos kwKeys dev chunkI ds).2).1,
          (execChunksFrom ops self kernel nPos kwKeys dev (chunkI + 1) m
            (execChunk ops self kernel nPos kwKeys dev chunkI ds).2).2) = _
      rw [execChunk_state ops self kernel nPos kwKeys dev chunkI ds (h chunkI)]
      rw [ih (chunkI + 1) ds h]
      rfl

theorem execDevs_map [Inhabited α] (ops : DtypeOps α) (self : DArray α)
    (kernel : List α → List (String × α) → α) (nPos : Nat) (kwKeys : List String) :
    ∀ (counts : List (Nat × Nat)) (ds : List (ArgKey × DArray α)),
      (∀ dev i, (scanUpdates dev i ((none : Option ArgKey), ([] : List (PendingUpdate α)))
        ds).2.2 = true) →
      execDevs ops self kernel nPos kwKeys counts ds =
        (counts.map (fun p => (p.1, (List.range' 0 p.2).map
          (fun i => (execChunk ops self kernel nPos kwKeys p.1 i ds).1))), ds) := by
  intro counts
  induction counts with
  | nil => intro ds h; rfl
  | cons p rest ih =>
      intro ds h
      show ((p.1, (execChunksFrom ops self kernel nPos kwKeys p.1 0 p.2 ds).1) ::
          (execDevs ops self kernel nPos kwKeys rest
            (execChunksFrom ops self kernel nPos kwKeys p.1 0 p.2 ds).2).1,
          (execDevs ops self kernel nPos kwKeys rest
            (execChunksFrom ops self kernel nPos kwKeys p.1 0 p.2 ds).2).2) = _
      rw [execChunksFrom_map ops self kernel nPos kwKeys p.1 p.2 0 ds (h p.1)]
      rw [ih ds h]
      rfl

theorem forall2_map_self {β : Type _} {R : β → β → Prop} (f g : Nat → β) :
    ∀ (l : List Nat), (∀ x ∈ l, R (f x) (g x)) →
      List.Forall₂ R (l.map f) (l.map g) := by
  intro l
  induction l with
  | nil => intro _; exact List.Forall₂.nil
  | cons a rest ih =>
      intro h
      exact List.Forall₂.cons (h a (List.mem_cons_self a rest))
        (ih (fun x hx => h x (List.mem_cons_of_mem a hx)))

theorem forall2_append {β : Type _} {R : β → β → Prop} :
    ∀ {l1 l2 l3 l4 : List β}, List.Forall₂ R l1 l2 → List.Forall₂ R l3 l4 →
      List.Forall₂ R (l1 ++ l3) (l2 ++ l4) := by
  intro l1 l2 l3 l4 h12 h34
  induction h12 with
  | nil => exact h34
  | cons hab _ ih => exact List.Forall₂.cons hab ih

theorem forall2_flatten_map {R : Chunk α → Chunk α → Prop}
    (g1 g2 : Nat → Nat → Chunk α) :
    ∀ (counts : List (Nat × Nat)), (∀ dev i, R (g1 dev i) (g2 dev i)) →
      List.Forall₂ R
        (flattenChunks (counts.map (fun p => (p.1, (List.range' 0 p.2).map (g1 p.1)))))
        (flattenChunks (counts.map (fun p => (p.1, (List.range' 0 p.2).map (g2 p.1))))) := by
  intro counts h
  induction counts with
  | nil => exact List.Forall₂.nil
  | cons p rest ih =>
      rw [List.map_cons, List.map_cons, flattenChunks_cons, flattenChunks_cons]
      exact forall2_append
        (forall2_map_self (g1 p.1) (g2 p.1) (List.range' 0 p.2) (fun i _ => h p.1 i)) ih

theorem applyUpdates_index_eq (ops : DtypeOps α) (mode : ModeName) (shape : List Nat)
    (ch : Chunk α) : (applyUpdates ops mode shape ch).index = ch.index := rfl

theorem asnumpyStep_replica (ops : DtypeOps α) (shape : List Nat)
    (np : Coord → Option α) (ch : Chunk α) (c : Coord) :
    asnumpyStep ops ModeName.replica shape np ch c =
      if inRegion shape ch.index c then some (ch.data c) else np c := by
  simp [asnumpyStep, isOpMode]

theorem asnumpy_fold_congr (ops : DtypeOps α) (shape : List Nat) :
    ∀ (l1 l2 : List (Chunk α)),
      List.Forall₂ (fun a b => a.index = b.index ∧ b.updates = [] ∧
        ∀ c, (applyUpdates ops ModeName.replica shape a).data c = b.data c) l1 l2 →
      ∀ (np1 np2 : Coord → Option α), (∀ c, np1 c = np2 c) →
      ∀ c,
        ((l1.map (applyUpdates ops ModeName.replica shape)).foldl
          (asnumpyStep ops ModeName.replica shape) np1) c =
        ((l2.map (applyUpdates ops ModeName.replica shape)).foldl
          (asnumpyStep ops ModeName.replica shape) np2) c := by
  intro l1 l2 h
  induction h with
  | nil => intro np1 np2 hnp c; exact hnp c
  | @cons a b L1 L2 hab htail ih =>
      intro np1 np2 hnp c
      simp only [List.map_cons, List.foldl_cons]
      apply ih
      intro c2
      obtain ⟨hidx, hupd, hdata⟩ := hab
      rw [asnumpyStep_replica, asnumpyStep_replica,
        applyUpdates_index_eq, applyUpdates_index_eq, hidx]
      by_cases hin : inRegion shape b.index c2 = true
      · rw [if_pos hin, if_pos hin, hdata c2,
          applyUpdates_data_of_nil ops ModeName.replica shape b hupd]
      · rw [if_neg hin, if_neg hin]
        exact hnp c2

theorem execChunk_eager_form [Inhabited α] (ops : DtypeOps α) (x y : DArray α)
    (kernel : List α → List (String × α) → α) (dev i : Nat) :
    (execChunk ops (drainArray ops x) kernel 2 [] dev i
      [(ArgKey.pos 0, drainArray ops x), (ArgKey.pos 1, drainArray ops y)]).1 =
    ⟨kernelApply kernel [(chunkAt (drainArray ops x) dev i).data,
        (chunkAt (drainArray ops y) dev i).data] [],
      (((indexMapOf x).lookup dev).getD []).getD i [], []⟩ := by
  have hdx : (chunkAt (drainArray ops x) dev i).updates = [] := by
    rw [chunkAt_drain]
    rfl
  have hdy : (chunkAt (drainArray ops y) dev i).updates = [] := by
    rw [chunkAt_drain]
    rfl
  have hscan : scanUpdates dev i (none, [])
      [(ArgKey.pos 0, drainArray ops x), (ArgKey.pos 1, drainArray ops y)] =
      ((none : Option ArgKey), [], true) := by
    rw [scanUpdates_two_left dev i _ _ hdx, hdy]
    rfl
  rw [execChunk_fst ops (drainArray ops x) kernel 2 [] dev i _ none [] hscan,
    indexMapOf_drain]
  rfl

theorem execChunk_lazy_left [Inhabited α] (ops : DtypeOps α) (x y : DArray α)
    (kernel : List α → List (String × α) → α) (dev i : Nat)
    (hx0 : (chunkAt x dev i).updates = []) :
    (execChunk ops x kernel 2 [] dev i [(ArgKey.pos 0, x), (ArgKey.pos 1, y)]).1 =
    ⟨kernelApply kernel [(chunkAt x dev i).data, (chunkAt y dev i).data] [],
      (((indexMapOf x).lookup dev).getD []).getD i [],
      (chunkAt y dev i).updates.map (fun u =>
        ((⟨fun c2 => kernel [(chunkAt x dev i).data c2, u.1.data c2] []⟩ :
          DataTransfer α), u.2))⟩ := by
  by_cases huy : (chunkAt y dev i).updates = []
  · have hscan : scanUpdates dev i (none, []) [(ArgKey.pos 0, x), (ArgKey.pos 1, y)] =
        ((none : Option ArgKey), [], true) := by
      rw [scanUpdates_two_left dev i x y hx0, huy]
      rfl
    rw [execChunk_fst ops x kernel 2 [] dev i _ none [] hscan, huy]
    rfl
  · have hne : (chunkAt y dev i).updates.isEmpty = false := by
      cases hh : (chunkAt y dev i).updates.isEmpty
      · rfl
      · exact absurd (List.isEmpty_iff.mp hh) huy
    have hscan : scanUpdates dev i (none, []) [(ArgKey.pos 0, x), (ArgKey.pos 1, y)] =
        (some (ArgKey.pos 1), (chunkAt y dev i).updates, true) := by
      rw [scanUpdates_two_left dev i x y hx0, hne]
      rfl
    rw [execChunk_fst ops x kernel 2 [] dev i _ _ _ hscan]
    rfl

theorem execChunk_lazy_right [Inhabited α] (ops : DtypeOps α) (x y : DArray α)
    (kernel : List α → List (String × α) → α) (dev i : Nat)
    (hy0 : (chunkAt y dev i).updates = []) :
    (execChunk ops x kernel 2 [] dev i [(ArgKey.pos 0, x), (ArgKey.pos 1, y)]).1 =
    ⟨kernelApply kernel [(chunkAt x dev i).data, (chunkAt y dev i).data] [],
      (((indexMapOf x).lookup dev).getD []).getD i [],
      (chunkAt x dev i).updates.map (fun u =>
        ((⟨fun c2 => kernel [u.1.data c2, (chunkAt y dev i).data c2] []⟩ :
          DataTransfer α), u.2))⟩ := by
  by_cases hux : (chunkAt x dev i).updates = []
  · have hscan : scanUpdates dev i (none, []) [(ArgKey.pos 0, x), (ArgKey.pos 1, y)] =
        ((none : Option ArgKey), [], true) := by
      rw [scanUpdates_two_right dev i x y hy0, hux]
      rfl
    rw [execChunk_fst ops x kernel 2 [] dev i _ none [] hscan, hux]
    rfl
  · have hne : (chunkAt x dev i).updates.isEmpty = false := by
      cases hh : (chunkAt x dev i).updates.isEmpty
      · rfl
      · exact absurd (List.isEmpty_iff.mp hh) hux
    have hscan : scanUpdates dev i (none, []) [(ArgKey.pos 0, x), (ArgKey.pos 1, y)] =
        (some (ArgKey.pos 0), (chunkAt x dev i).updates, true) := by
      rw [scanUpdates_two_right dev i x y hy0, hne]
      rfl
    rw [execChunk_fst ops x kernel 2 [] dev i _ _ _ hscan]
    rfl

theorem applyUpdates_data_eq (ops : DtypeOps α) (mode : ModeName) (shape : List Nat)
    (ch : Chunk α) :
    (applyUpdates ops mode shape ch).data =
      ch.updates.foldl (applyOneUpdate ops mode shape) ch.data := rfl

theorem execChunk_drain_rel [Inhabited α] (ops : DtypeOps α) (x y : DArray α)
    (kernel : List α → List (String × α) → α) (dev i : Nat)
    (hxm : x.mode = ModeName.replica) (hym : y.mode = ModeName.replica)
    (hys : y.shape = x.shape)
    (hone : (chunkAt x dev i).updates = [] ∨ (chunkAt y dev i).updates = []) :
    (execChunk ops x kernel 2 [] dev i [(ArgKey.pos 0, x), (ArgKey.pos 1, y)]).1.index =
      (execChunk ops (drainArray ops x) kernel 2 [] dev i
        [(ArgKey.pos 0, drainArray ops x), (ArgKey.pos 1, drainArray ops y)]).1.index ∧
    (execChunk ops (drainArray ops x) kernel 2 [] dev i
      [(ArgKey.pos 0, drainArray ops x), (ArgKey.pos 1, drainArray ops y)]).1.updates = [] ∧
    ∀ c, (applyUpdates ops ModeName.replica x.shape
        (execChunk ops x kernel 2 [] dev i
          [(ArgKey.pos 0, x), (ArgKey.pos 1, y)]).1).data c =
      (execChunk ops (drainArray ops x) kernel 2 [] dev i
        [(ArgKey.pos 0, drainArray ops x), (ArgKey.pos 1, drainArray ops y)]).1.data c := by
  rw [execChunk_eager_form ops x y kernel dev i]
  rcases hone with hx0 | hy0
  · rw [execChunk_lazy_left ops x y kernel dev i hx0]
    refine ⟨rfl, rfl, ?_⟩
    intro c
    have hcomm := update_fold_commute ops x.shape
      (fun c2 v => kernel [(chunkAt x dev i).data c2, v] [])
      (chunkAt y dev i).updates
      (kernelApply kernel [(chunkAt x dev i).data, (chunkAt y dev i).data] [])
      (chunkAt y dev i).data
      (fun c2 => rfl) c
    rw [chunkAt_drain ops x dev i, chunkAt_drain ops y dev i, hxm, hym, hys,
      applyUpdates_data_of_nil ops ModeName.replica x.shape _ hx0]
    exact hcomm
  · rw [execChunk_lazy_right ops x y kernel dev i hy0]
    refine ⟨rfl, rfl, ?_⟩
    intro c
    have hcomm := update_fold_commute ops x.shape
      (fun c2 v => kernel [v, (chunkAt y dev i).data c2] [])
      (chunkAt x dev i).updates
      (kernelApply kernel [(chunkAt x dev i).data, (chunkAt y dev i).data] [])
      (chunkAt x dev i).data
      (fun c2 => rfl) c
    rw [chunkAt_drain ops x dev i, chunkAt_drain ops y dev i, hxm, hym, hys,
      applyUpdates_data_of_nil ops ModeName.replica x.shape _ hy0]
    exact hcomm

theorem asnumpy_replica_congr (ops : DtypeOps α) (shape : List Nat) (m1 m2 : ChunksMap α)
    (h : List.Forall₂ (fun a b => a.index = b.index ∧ b.updates = [] ∧
      ∀ c, (applyUpdates ops ModeName.replica shape a).data c = b.data c)
      (flattenChunks m1) (flattenChunks m2)) :
    ∀ c, asnumpyModel ops ⟨shape, m1, ModeName.replica⟩ c =
      asnumpyModel ops ⟨shape, m2, ModeName.replica⟩ c := by
  intro c
  show ((flattenChunks (drainChunksMap ops ModeName.replica shape m1)).foldl
      (asnumpyStep ops ModeName.replica shape) (fun _ => none)) c =
    ((flattenChunks (drainChunksMap ops ModeName.replica shape m2)).foldl
      (asnumpyStep ops ModeName.replica shape) (fun _ => none)) c
  rw [show drainChunksMap ops ModeName.replica shape m1 =
      m1.map (fun p => (p.1, p.2.map (applyUpdates ops ModeName.replica shape))) from rfl,
    show drainChunksMap ops ModeName.replica shape m2 =
      m2.map (fun p => (p.1, p.2.map (applyUpdates ops ModeName.replica shape))) from rfl,
    flattenChunks_map, flattenChunks_map]
  exact asnumpy_fold_congr ops shape _ _ h _ _ (fun _ => rfl) c

/-- C4: for an elementwise kernel over two distributed arrays with the same
index map, with exactly one pending partial update queued across the two
operands (so exactly one operand carries exactly one update), the lazy
two-pass execution of `_execute_kernel` — kernel on base buffers plus one
kernel run per pending update, queued as an update on the output chunk —
materializes (`asnumpy`) to the same result as eagerly draining the update
before running the kernel once. -/
theorem execute_kernel_lazy_update_transparent {α : Type} [Inhabited α]
    (ops : DtypeOps α) (x y : DArray α)
    (kernel : List α → List (String × α) → α) (r1 : DArray α)
    (hxm : x.mode = ModeName.replica) (hym : y.mode = ModeName.replica)
    (hys : y.shape = x.shape) (hyim : indexMapOf y = indexMapOf x)
    (hone : totalUpdates x + totalUpdates y = 1)
    (hrun : executeKernel ops x kernel [KArg.distArr x, KArg.distArr y] [] = .ok r1) :
    ∃ r2 : DArray α,
      executeKernel ops (drainArray ops x) kernel
        [KArg.distArr (drainArray ops x), KArg.distArr (drainArray ops y)] [] = .ok r2 ∧
      ∀ c : Coord, asnumpyModel ops r1 c = asnumpyModel ops r2 c := by
  have hsplit : totalUpdates x = 0 ∨ totalUpdates y = 0 := by omega
  have honePos : ∀ dev i,
      (chunkAt x dev i).updates = [] ∨ (chunkAt y dev i).updates = [] := by
    rcases hsplit with h0 | h0
    · exact fun dev i => Or.inl (chunkAt_updates_of_total_zero x h0 dev i)
    · exact fun dev i => Or.inr (chunkAt_updates_of_total_zero y h0 dev i)
  have hPL : classifyPos ops x.shape (indexMapOf x) 0 [KArg.distArr x, KArg.distArr y] =
      .ok ([(ArgKey.pos 0, x), (ArgKey.pos 1, y)], []) :=
    classifyPos_two ops x.shape (indexMapOf x) x y rfl hys rfl hyim hxm hym
  have hPE : classifyPos ops (drainArray ops x).shape (indexMapOf (drainArray ops x)) 0
      [KArg.distArr (drainArray ops x), KArg.distArr (drainArray ops y)] =
      .ok ([(ArgKey.pos 0, drainArray ops x), (ArgKey.pos 1, drainArray ops y)], []) :=
    classifyPos_two ops (drainArray ops x).shape (indexMapOf (drainArray ops x))
      (drainArray ops x) (drainArray ops y) rfl hys rfl
      (by rw [indexMapOf_drain, indexMapOf_drain, hyim]) hxm hym
  have hKL := executeKernel_reduce ops x y kernel hPL
  rw [hKL] at hrun
  rcases hc : countChunks [(ArgKey.pos 0, x), (ArgKey.pos 1, y)] with e | counts
  · rw [hc] at hrun
    exact absurd hrun (by simp)
  · rw [hc] at hrun
    have hr1 : r1 = ⟨x.shape,
        (execDevs ops x kernel 2 [] counts [(ArgKey.pos 0, x), (ArgKey.pos 1, y)]).1,
        ModeName.replica⟩ := (Except.ok.inj hrun).symm
    have hKE := executeKernel_reduce ops (drainArray ops x) (drainArray ops y) kernel hPE
    have hcE : countChunks
        [(ArgKey.pos 0, drainArray ops x), (ArgKey.pos 1, drainArray ops y)] =
        .ok counts := by
      rw [countChunks_drain_eq]
      exact hc
    rw [hcE] at hKE
    refine ⟨⟨x.shape,
      (execDevs ops (drainArray ops x) kernel 2 [] counts
        [(ArgKey.pos 0, drainArray ops x), (ArgKey.pos 1, drainArray ops y)]).1,
      ModeName.replica⟩, hKE, ?_⟩
    have hflagL : ∀ dev i, (scanUpdates dev i
        ((none : Option ArgKey), ([] : List (PendingUpdate α)))
        [(ArgKey.pos 0, x), (ArgKey.pos 1, y)]).2.2 = true :=
      fun dev i => scan_flag_two dev i x y (honePos dev i)
    have hflagE : ∀ dev i, (scanUpdates dev i
        ((none : Option ArgKey), ([] : List (PendingUpdate α)))
        [(ArgKey.pos 0, drainArray ops x), (ArgKey.pos 1, drainArray ops y)]).2.2 = true :=
      fun dev i => scan_flag_two dev i _ _ (Or.inl (by rw [chunkAt_drain]; rfl))
    have hm1 : (execDevs ops x kernel 2 [] counts
        [(ArgKey.pos 0, x), (ArgKey.pos 1, y)]).1 =
        counts.map (fun p => (p.1, (List.range' 0 p.2).map
          (fun i => (execChunk ops x kernel 2 [] p.1 i
            [(ArgKey.pos 0, x), (ArgKey.pos 1, y)]).1))) := by
      rw [execDevs_map ops x kernel 2 [] counts _ hflagL]
    have hm2 : (execDevs ops (drainArray ops x) kernel 2 [] counts
        [(ArgKey.pos 0, drainArray ops x), (ArgKey.pos 1, drainArray ops y)]).1 =
        counts.map (fun p => (p.1, (List.range' 0 p.2).map
          (fun i => (execChunk ops (drainArray ops x) kernel 2 [] p.1 i
            [(ArgKey.pos 0, drainArray ops x), (ArgKey.pos 1, drainArray ops y)]).1))) := by
      rw [execDevs_map ops (drainArray ops x) kernel 2 [] counts _ hflagE]
    rw [hr1, hm1, hm2]
    exact asnumpy_replica_congr ops x.shape _ _
      (forall2_flatten_map
        (fun dev i => (execChunk ops x kernel 2 [] dev i
          [(ArgKey.pos 0, x), (ArgKey.pos 1, y)]).1)
        (fun dev i => (execChunk ops (drainArray ops x) kernel 2 [] dev i
          [(ArgKey.pos 0, drainArray ops x), (ArgKey.pos 1, drainArray ops y)]).1)
        counts
        (fun dev i => execChunk_drain_rel ops x y kernel dev i hxm hym hys (honePos dev i)))

/-- Witness for C4 at concrete operands: `wX` is update-free and `wY` carries
exactly one pending update; the lazy run of `wKernel` outputs `wR1`. -/
theorem execute_kernel_lazy_update_transparent_witness :
    ∃ r2 : DArray Int,
      executeKernel intOps (drainArray intOps wX) wKernel
        [KArg.distArr (drainArray intOps wX), KArg.distArr (drainArray intOps wY)] [] =
        .ok r2 ∧
      ∀ c : Coord, asnumpyModel intOps wR1 c = asnumpyModel intOps r2 c :=
  execute_kernel_lazy_update_transparent intOps wX wY wKernel wR1 rfl rfl rfl rfl rfl rfl

/-- C6: REFUTED on the keyword path.  In `_execute_kernel` only positional
distributed operands pass through `to_replica_mode`; a keyword operand is
appended verbatim, so the kernel runs on its raw op-mode chunk data.  Here the
sum-mode keyword operand `kwOperand` logically holds `7` (`3 + 4`; third
conjunct), yet the call materializes the kernel's keyword echo to `4`, the raw
partial value of the last chunk (first conjunct); the keyword classification
loop indeed returns the operand still in `sum` mode (second conjunct). -/
theorem execute_kernel_kwarg_not_replicated :
    (executeKernel intOps kwSelf kwKernel [KArg.distArr kwSelf]
        [("w", KArg.distArr kwOperand)]).map (fun r => asnumpyModel intOps r [0]) =
      .ok (some 4) ∧
    (classifyKw [1] (indexMapOf kwSelf) [("w", KArg.distArr kwOperand)]).map
        (fun l => l.map (fun p => p.2.mode)) = .ok [ModeName.sum] ∧
    asnumpyModel intOps (toReplicaMode intOps kwOperand) [0] = some 7 :=
  ⟨rfl, rfl, rfl⟩

end CupyDist
